import Mathlib

/-!
Verification of the tiny-run-router backend (`backend/data.py`,
`backend/routing.py`, `backend/main.py`, `backend/edit.py`).

The Python code is shallowly embedded:
* Python floats become exact rationals (`ℚ`);
* Python dicts become association lists (first binding wins, in-place
  update keeps the position of a key, new keys are appended at the end,
  mirroring the insertion-order semantics of Python dicts);
* the `heapq` priority queue becomes a list from which `popMin` extracts
  the lexicographically least `(priority, node)` pair, exactly the element
  `heapq.heappop` would return;
* the `while heap:` loop of `_dijkstra` is driven by an explicit fuel that
  is proved below to dominate the number of loop iterations, so the fueled
  function computes the same final state as the source loop.
-/

namespace TinyRunRouter

abbrev NodeId := String

/-- Association-list lookup: the value of the first binding of `k`,
mirroring a Python dict read (`m[k]` / `m.get(k)`). -/
def aget {κ α : Type} [DecidableEq κ] : List (κ × α) → κ → Option α
  | [], _ => none
  | (k, v) :: rest, q => if k = q then some v else aget rest q

/-- Association-list update mirroring a Python dict write `m[k] = v`:
an existing binding is replaced in place, a new key is appended at the end. -/
def aset {κ α : Type} [DecidableEq κ] : List (κ × α) → κ → α → List (κ × α)
  | [], q, w => [(q, w)]
  | (k, v) :: rest, q, w =>
    if k = q then (q, w) :: rest else (k, v) :: aset rest q w

theorem aget_aset_self {κ α : Type} [DecidableEq κ] (m : List (κ × α)) (k : κ) (v : α) :
    aget (aset m k v) k = some v := by
  induction m with
  | nil => simp [aget, aset]
  | cons p rest ih =>
    rcases p with ⟨k0, v0⟩
    by_cases h : k0 = k
    · simp [aget, aset, h]
    · simp [aget, aset, h, ih]

theorem aget_aset_ne {κ α : Type} [DecidableEq κ] (m : List (κ × α)) (k q : κ) (v : α)
    (h : k ≠ q) : aget (aset m k v) q = aget m q := by
  induction m with
  | nil => simp [aget, aset, h]
  | cons p rest ih =>
    rcases p with ⟨k0, v0⟩
    by_cases h0 : k0 = k
    · subst h0
      have hq : ¬(q = k0) := fun he => h he.symm
      simp [aget, aset, h, hq]
    · by_cases h1 : k0 = q
      · subst h1
        simp [aget, aset, h0]
      · simp [aget, aset, h0, h1, ih]

theorem aget_mem {κ α : Type} [DecidableEq κ] {m : List (κ × α)} {k : κ} {v : α}
    (h : aget m k = some v) : (k, v) ∈ m := by
  induction m with
  | nil => simp [aget] at h
  | cons p rest ih =>
    rcases p with ⟨k0, v0⟩
    by_cases h0 : k0 = k
    · subst h0
      simp [aget] at h
      simp [h]
    · simp [aget, h0] at h
      exact List.mem_cons_of_mem _ (ih h)

theorem mem_aget {κ α : Type} [DecidableEq κ] {m : List (κ × α)} {k : κ} {v : α}
    (hnd : (m.map Prod.fst).Nodup) (h : (k, v) ∈ m) : aget m k = some v := by
  induction m with
  | nil => simp at h
  | cons p rest ih =>
    rcases p with ⟨k0, v0⟩
    simp only [List.map_cons, List.nodup_cons] at hnd
    rcases List.mem_cons.1 h with h1 | h1
    · rcases Prod.mk.injEq .. ▸ h1 with ⟨hk, hv⟩
      simp [aget, hk.symm, hv]
    · have hk0 : k0 ≠ k := by
        intro he
        exact hnd.1 (he ▸ (List.mem_map.2 ⟨(k, v), h1, rfl⟩))
      simp [aget, hk0]
      exact ih hnd.2 h1

theorem aget_isSome_iff_mem_keys {κ α : Type} [DecidableEq κ] (m : List (κ × α)) (k : κ) :
    (aget m k).isSome ↔ k ∈ m.map Prod.fst := by
  induction m with
  | nil => simp [aget]
  | cons p rest ih =>
    rcases p with ⟨k0, v0⟩
    by_cases h0 : k0 = k
    · subst h0
      simp [aget]
    · have h0' : k ≠ k0 := fun he => h0 he.symm
      simp [aget, h0, h0', ih]

theorem aset_keys_of_mem {κ α : Type} [DecidableEq κ] (m : List (κ × α)) (k : κ) (v : α)
    (h : k ∈ m.map Prod.fst) : (aset m k v).map Prod.fst = m.map Prod.fst := by
  induction m with
  | nil => simp at h
  | cons p rest ih =>
    rcases p with ⟨k0, v0⟩
    by_cases h0 : k0 = k
    · simp [aset, h0]
    · simp only [List.map_cons, List.mem_cons] at h
      rcases h with h | h
    <;> first
      | exact absurd h.symm h0
      | simp [aset, h0, ih h]

theorem aset_keys_of_not_mem {κ α : Type} [DecidableEq κ] (m : List (κ × α)) (k : κ) (v : α)
    (h : k ∉ m.map Prod.fst) : (aset m k v).map Prod.fst = m.map Prod.fst ++ [k] := by
  induction m with
  | nil => simp [aset]
  | cons p rest ih =>
    rcases p with ⟨k0, v0⟩
    simp only [List.map_cons, List.mem_cons] at h
    push_neg at h
    have h0 : k0 ≠ k := fun he => h.1 he.symm
    simp [aset, h0, ih h.2]

theorem aset_keys_nodup {κ α : Type} [DecidableEq κ] (m : List (κ × α)) (k : κ) (v : α)
    (h : (m.map Prod.fst).Nodup) : ((aset m k v).map Prod.fst).Nodup := by
  by_cases hk : k ∈ m.map Prod.fst
  · rw [aset_keys_of_mem m k v hk]
    exact h
  · rw [aset_keys_of_not_mem m k v hk]
    simp [List.nodup_append, h, hk]

theorem aget_aset_isSome {κ α : Type} [DecidableEq κ] (m : List (κ × α)) (k q : κ) (v : α) :
    (aget (aset m k v) q).isSome ↔ ((aget m q).isSome ∨ q = k) := by
  by_cases h : k = q
  · subst h
    simp [aget_aset_self]
  · have hq : ¬(q = k) := fun he => h he.symm
    simp [aget_aset_ne m k q v h, hq]

/-- `backend/data.py`, dataclass `Node`. Floats are embedded as rationals. -/
structure Node where
  id : NodeId
  name : String
  lat : ℚ
  lon : ℚ
  elevation : ℚ
deriving DecidableEq, Repr

/-- `backend/data.py`, dataclass `Edge`. `road_type` stays a string as in the
source (one of main_road / residential / path). -/
structure Edge where
  u : NodeId
  v : NodeId
  distance_m : ℚ
  road_type : String
  elevation_gain_m : ℚ
deriving DecidableEq, Repr

/-- `backend/data.py`, dataclass `Graph`: dicts become association lists. -/
structure Graph where
  nodes : List (NodeId × Node)
  adjacency : List (NodeId × List Edge)
deriving DecidableEq, Repr

/-- `backend/data.py`, `_add_undirected_edge`: appends the two directed
edge records, with uphill-only elevation gains, to the adjacency dict
(`setdefault(u, []).append(...)` for each direction, u first, then v). -/
def _add_undirected_edge (adjacency : List (NodeId × List Edge)) (u v : NodeId)
    (distance_m : ℚ) (road_type : String) (elev_u elev_v : ℚ) :
    List (NodeId × List Edge) :=
  let elev_gain_uv := max (elev_v - elev_u) 0
  let elev_gain_vu := max (elev_u - elev_v) 0
  let adj1 := aset adjacency u
    (((aget adjacency u).getD []) ++ [⟨u, v, distance_m, road_type, elev_gain_uv⟩])
  aset adj1 v
    (((aget adj1 v).getD []) ++ [⟨v, u, distance_m, road_type, elev_gain_vu⟩])

/-- `backend/routing.py`, `edge_cost`: scoring weight of an edge
(road-type multiplier on the distance plus an elevation penalty). -/
def edge_cost (e : Edge) : ℚ :=
  let base := e.distance_m
  let base :=
    if e.road_type = "main_road" then base * (0.9 : ℚ)
    else if e.road_type = "residential" then base * (1.0 : ℚ)
    else base * (1.05 : ℚ)
  base + 3 * max e.elevation_gain_m 0

/-- `backend/routing.py`, dataclass `RouteResult`. -/
structure RouteResult where
  nodes : List NodeId
  distance_m : ℚ
  elevation_gain_m : ℚ
  score : ℚ
deriving DecidableEq, Repr

/-- Code-point lexicographic comparison of character lists, the order Python
uses to compare strings (inside tuple comparisons of `heapq` / `sorted`). -/
def chListLe : List Char → List Char → Bool
  | [], _ => true
  | _ :: _, [] => false
  | a :: as, b :: bs =>
    if a.val < b.val then true else if b.val < a.val then false else chListLe as bs

/-- Python string comparison `s1 <= s2`. -/
def strLeB (s1 s2 : String) : Bool := chListLe s1.data s2.data

/-- Python tuple comparison `(d1, s1) <= (d2, s2)` on (float, str) pairs. -/
def lexLeB (x y : ℚ × String) : Bool :=
  decide (x.1 < y.1) || (decide (x.1 = y.1) && strLeB x.2 y.2)

/-- `tuple(sorted((u, v)))` on a pair of node-id strings: the unordered
edge key used by the penalty dict and the reuse counters. -/
def sortPair (u v : NodeId) : NodeId × NodeId :=
  if strLeB u v then (u, v) else (v, u)

/-- `heapq.heappop`: extract the lexicographically least `(priority, node)`
pair of the heap together with the remaining entries. -/
def popMin : List (ℚ × NodeId) → Option ((ℚ × NodeId) × List (ℚ × NodeId))
  | [] => none
  | x :: xs =>
    match popMin xs with
    | none => some (x, [])
    | some (m, rest) =>
      if lexLeB x m then some (x, xs) else some (m, x :: rest)

/-- The mutable state of the `while heap:` loop inside `_dijkstra`. -/
structure DState where
  dist : List (NodeId × ℚ)
  prev : List (NodeId × Option NodeId)
  heap : List (ℚ × NodeId)
deriving DecidableEq, Repr

/-- The effective weight of an edge inside `_dijkstra`:
`e.distance_m * edge_penalty.get(tuple(sorted((e.u, e.v))), 1.0)`. -/
def penWeight (edge_penalty : List ((NodeId × NodeId) × ℚ)) (e : Edge) : ℚ :=
  e.distance_m * ((aget edge_penalty (sortPair e.u e.v)).getD 1)

/-- The body of the `for e in adjacency.get(u, [])` relaxation loop of
`_dijkstra`, for a single edge `e` (`u`, `d` are the popped node and its
priority; edges with non-positive raw distance are skipped; an improvement
within budget updates `dist`/`prev` and pushes the new entry). -/
def relaxEdge (edge_penalty : List ((NodeId × NodeId) × ℚ)) (max_dist : ℚ)
    (u : NodeId) (d : ℚ) (st : DState) (e : Edge) : DState :=
  if e.distance_m ≤ 0 then st
  else
    let nd := d + penWeight edge_penalty e
    let better :=
      match aget st.dist e.v with
      | some dv => decide (nd < dv)
      | none => true
    if better && decide (nd ≤ max_dist) then
      { dist := aset st.dist e.v nd
        prev := aset st.prev e.v (some u)
        heap := st.heap ++ [(nd, e.v)] }
    else st

/-- The full relaxation of the popped node `u` at priority `d`. -/
def relaxEdges (g : Graph) (edge_penalty : List ((NodeId × NodeId) × ℚ))
    (max_dist : ℚ) (u : NodeId) (d : ℚ) (st : DState) : DState :=
  ((aget g.adjacency u).getD []).foldl (relaxEdge edge_penalty max_dist u d) st

/-- One test of the `while heap:` loop of `_dijkstra`, driven by fuel: pop
the least entry, skip it when stale (`d > dist.get(u, inf)`) or beyond the
budget (`d > max_dist`), otherwise relax the edges of `u`. The fuel is an
upper bound on the number of iterations, proved sufficient below, so the
function returns the state in which the source loop exits. -/
def dijkstraLoop (g : Graph) (edge_penalty : List ((NodeId × NodeId) × ℚ))
    (max_dist : ℚ) : Nat → DState → DState
  | 0, st => st
  | fuel + 1, st =>
    match popMin st.heap with
    | none => st
    | some ((d, u), rest) =>
      let st1 : DState := { st with heap := rest }
      let stale :=
        match aget st.dist u with
        | some du => decide (du < d)
        | none => false
      if stale then dijkstraLoop g edge_penalty max_dist fuel st1
      else if decide (max_dist < d) then dijkstraLoop g edge_penalty max_dist fuel st1
      else dijkstraLoop g edge_penalty max_dist fuel (relaxEdges g edge_penalty max_dist u d st1)

/-- All node ids that can ever get a `dist` entry: the start node and every
edge target occurring in the adjacency dict (deduplicated). -/
def touchable (g : Graph) (start : NodeId) : List NodeId :=
  (start :: (g.adjacency.map (fun p => p.2.map (fun e => e.v))).flatten).dedup

/-- Length of the adjacency list of `v`. -/
def outdeg (g : Graph) (v : NodeId) : Nat := ((aget g.adjacency v).getD []).length

/-- Total relaxation work available, used to bound the pushes. -/
def degSum (g : Graph) (start : NodeId) : Nat :=
  ((touchable g start).map (outdeg g)).sum

/-- Fuel dominating the iteration count of the `while heap:` loop. -/
def dijkstraFuel (g : Graph) (start : NodeId) : Nat :=
  2 + (degSum g start + 1) * (touchable g start).length

/-- `backend/routing.py`, `_dijkstra`: bounded single-source shortest paths
on raw edge distances with optional per-edge penalty multipliers. Returns
the `dist` and `prev` dicts. -/
def _dijkstra (g : Graph) (start : NodeId) (max_dist : ℚ)
    (edge_penalty : List ((NodeId × NodeId) × ℚ)) :
    List (NodeId × ℚ) × List (NodeId × Option NodeId) :=
  let st0 : DState :=
    { dist := [(start, 0)], prev := [(start, none)], heap := [(0, start)] }
  let final := dijkstraLoop g edge_penalty max_dist (dijkstraFuel g start) st0
  (final.dist, final.prev)

/-- The `while cur is not None` walk of `_reconstruct_path`, building the
path front-first (the source appends then reverses; consing while walking
produces the same list). `prev.get(cur)` yields the sentinel both for a
missing key and for an explicit `None` value, exactly as `dict.get`. -/
def reconGo (prev : List (NodeId × Option NodeId)) : Nat → NodeId → List NodeId → List NodeId
  | 0, _, acc => acc
  | fuel + 1, cur, acc =>
    match (aget prev cur).getD none with
    | none => cur :: acc
    | some nxt => reconGo prev fuel nxt (cur :: acc)

/-- `backend/routing.py`, `_reconstruct_path`. -/
def _reconstruct_path (prev : List (NodeId × Option NodeId)) (target : NodeId) :
    Option (List NodeId) :=
  if (aget prev target).isNone then none
  else some (reconGo prev (prev.length + 1) target [])

/-- `backend/routing.py`, `_path_distance_and_elevation`: walk consecutive
pairs, look up the first matching edge, and accumulate raw distance,
non-negative elevation gain and scoring cost; pairs without a matching
edge are skipped. Returns `(total_dist, (total_elev, total_cost))`. -/
def _path_distance_and_elevation (g : Graph) (nodes : List NodeId) : ℚ × ℚ × ℚ :=
  if nodes.length < 2 then (0, 0, 0)
  else
    (nodes.zip nodes.tail).foldl
      (fun acc p =>
        match ((aget g.adjacency p.1).getD []).find? (fun e => e.v = p.2) with
        | none => acc
        | some e =>
          (acc.1 + e.distance_m, acc.2.1 + max e.elevation_gain_m 0, acc.2.2 + edge_cost e))
      (0, 0, 0)

/-- The `used_edges` counting loop of `find_best_loop`: unordered pair keys
of the forward path with multiplicities. -/
def usedEdges (path : List NodeId) : List ((NodeId × NodeId) × Nat) :=
  (path.zip path.tail).foldl
    (fun m p =>
      let key := sortPair p.1 p.2
      aset m key ((aget m key).getD 0 + 1))
    []

/-- The reuse counter of `find_best_loop`: walking consecutive pairs with a
seen-set, each repetition of an unordered pair beyond the first counts one. -/
def reuseCount (nodes : List NodeId) : Nat :=
  ((nodes.zip nodes.tail).foldl
    (fun acc p =>
      let key := sortPair p.1 p.2
      if key ∈ acc.2 then (acc.1 + 1, acc.2) else (acc.1, key :: acc.2))
    ((0 : Nat), ([] : List (NodeId × NodeId)))).1

/-- Insertion into a descending lexicographically sorted candidate list. -/
def insDesc (x : ℚ × NodeId) : List (ℚ × NodeId) → List (ℚ × NodeId)
  | [] => [x]
  | y :: ys => if lexLeB x y then y :: insDesc x ys else x :: y :: ys

/-- `candidates.sort(reverse=True)`: descending lexicographic sort of the
`(forward distance, node id)` pairs. -/
def sortDesc (l : List (ℚ × NodeId)) : List (ℚ × NodeId) := l.foldr insDesc []

/-- The forward Dijkstra run of `find_best_loop` (no penalties). -/
def forwardRun (g : Graph) (start : NodeId) (d_max_m : ℚ) :
    List (NodeId × ℚ) × List (NodeId × Option NodeId) :=
  _dijkstra g start d_max_m []

/-- The candidate filter of `find_best_loop`: every `(d, node_id)` item of
`dist_fw` with `d_min_m * 0.4 <= d <= target_m`, in dict order. -/
def loopCandidates (dist_fw : List (NodeId × ℚ)) (d_min_m target_m : ℚ) :
    List (ℚ × NodeId) :=
  (dist_fw.filter (fun p => decide (d_min_m * (0.4 : ℚ) ≤ p.2) && decide (p.2 ≤ target_m))).map
    (fun p => (p.2, p.1))

/-- The candidates actually tried: sorted farthest first, capped at 40
(`MAX_CANDIDATES`). -/
def triedCandidates (candidates : List (ℚ × NodeId)) : List (ℚ × NodeId) :=
  (sortDesc candidates).take 40

/-- The body of the `for dist_to_v, v in candidates:` loop of
`find_best_loop`, folded over the running best result. -/
def tryCandidate (g : Graph) (start : NodeId) (d_min_m d_max_m elev_limit_m target_m : ℚ)
    (prev_fw : List (NodeId × Option NodeId)) (best : Option RouteResult)
    (c : ℚ × NodeId) : Option RouteResult :=
  let dist_to_v := c.1
  let v := c.2
  match _reconstruct_path prev_fw v with
  | none => best
  | some path_fw =>
    if path_fw.length < 2 then best
    else
      let edge_penalty := (usedEdges path_fw).map (fun p => (p.1, (4.0 : ℚ)))
      let remaining_dist_budget := d_max_m - dist_to_v
      if remaining_dist_budget ≤ 0 then best
      else
        let back := _dijkstra g v remaining_dist_budget edge_penalty
        if (aget back.1 start).isNone then best
        else
          match _reconstruct_path back.2 start with
          | none => best
          | some path_back =>
            if path_back.length < 2 then best
            else
              let loop_nodes := path_fw ++ path_back.tail
              let tde := _path_distance_and_elevation g loop_nodes
              let total_dist := tde.1
              let total_elev := tde.2.1
              let total_cost := tde.2.2
              if total_dist < d_min_m then best
              else if d_max_m < total_dist then best
              else if elev_limit_m < total_elev then best
              else
                let reuse_count := reuseCount loop_nodes
                let deviation := |total_dist - target_m|
                let score := total_cost + 5 * deviation ^ 2 + 300 * (reuse_count : ℚ)
                match best with
                | none => some ⟨loop_nodes, total_dist, total_elev, score⟩
                | some b =>
                  if score < b.score then some ⟨loop_nodes, total_dist, total_elev, score⟩
                  else best

/-- `backend/routing.py`, `find_best_loop`: the constrained loop search.
The `ValueError` raised for an unknown start id becomes `Except.error`. -/
def find_best_loop (g : Graph) (start : NodeId)
    (d_min_m d_max_m elev_limit_m target_m : ℚ) :
    Except String (Option RouteResult) :=
  if (aget g.nodes start).isNone then .error ("Start node not in graph")
  else
    let fw := forwardRun g start d_max_m
    let candidates := loopCandidates fw.1 d_min_m target_m
    if candidates = [] then .ok none
    else
      .ok ((triedCandidates candidates).foldl
        (tryCandidate g start d_min_m d_max_m elev_limit_m target_m fw.2) none)

/-- `backend/main.py`, pydantic model `SnapPoint`. -/
structure SnapPoint where
  lat : ℚ
  lon : ℚ
deriving DecidableEq, Repr

/-- `backend/main.py`, `_latlon_to_xy`. The source computes
`k_lon = 111320 * cos(radians(lat0))`; the cosine value is transcendental,
so it is threaded through as the parameter `cos_lat0`. -/
def _latlon_to_xy (cos_lat0 lat lon lat0 lon0 : ℚ) : ℚ × ℚ :=
  let k_lat : ℚ := 111320
  let k_lon : ℚ := 111320 * cos_lat0
  ((lon - lon0) * k_lon, (lat - lat0) * k_lat)

/-- `backend/main.py`, `_xy_to_latlon` (inverse projection; a zero
`cos_lat0` would raise in Python, while rational division yields 0 — no
claim depends on that point). -/
def _xy_to_latlon (cos_lat0 x y lat0 lon0 : ℚ) : ℚ × ℚ :=
  let k_lat : ℚ := 111320
  let k_lon : ℚ := 111320 * cos_lat0
  (y / k_lat + lat0, x / k_lon + lon0)

/-- Squared planar distance. The source uses `math.dist` (a Euclidean
square root); every downstream use only compares distances, so the
embedding tracks the squares, which order the same way. -/
def sqDist (ax ay bx by' : ℚ) : ℚ := (ax - bx) ^ 2 + (ay - by') ^ 2

/-- `backend/main.py`, `_project_point_to_segment`: clamp the scalar
projection to the segment and return the projection point together with
the (squared, see `sqDist`) distance to it. -/
def _project_point_to_segment (px py x1 y1 x2 y2 : ℚ) : ℚ × ℚ × ℚ :=
  let vx := x2 - x1
  let vy := y2 - y1
  let wx := px - x1
  let wy := py - y1
  let seg_len2 := vx * vx + vy * vy
  if seg_len2 = 0 then (x1, y1, sqDist px py x1 y1)
  else
    let t := max 0 (min 1 ((vx * wx + vy * wy) / seg_len2))
    let proj_x := x1 + t * vx
    let proj_y := y1 + t * vy
    (proj_x, proj_y, sqDist px py proj_x proj_y)

/-- `backend/main.py`, `_build_segments_for_snap`: one `(lat1, lon1, lat2,
lon2)` entry per de-duplicated undirected edge, in adjacency order. The
source indexes `graph.nodes` directly (raising on a malformed graph); the
embedding defaults missing endpoints to a zero node — no claim settled
here inspects segment coordinates of malformed graphs. -/
def _build_segments_for_snap (g : Graph) : List (ℚ × ℚ × ℚ × ℚ) :=
  (g.adjacency.foldl
    (fun acc p =>
      p.2.foldl
        (fun (acc : List (NodeId × NodeId) × List (ℚ × ℚ × ℚ × ℚ)) e =>
          let key := sortPair e.u e.v
          if key ∈ acc.1 then acc
          else
            let n1 := (aget g.nodes e.u).getD ⟨("") , ("") , 0, 0, 0⟩
            let n2 := (aget g.nodes e.v).getD ⟨("") , ("") , 0, 0, 0⟩
            (key :: acc.1, acc.2 ++ [(n1.lat, n1.lon, n2.lat, n2.lon)]))
        acc)
    ([], [])).2

/-- The planar length of the segment between two points, as computed inside
`_densify_points`. The source calls `math.hypot dx dy`; a square root does
not exist on `ℚ`, so the hypotenuse function is a parameter `hyp` of the
embedding (every claim settled about densification holds for all `hyp`). -/
def planarSegLen (hyp : ℚ → ℚ → ℚ) (cos_lat0 lat0 lon0 : ℚ) (p1 p2 : SnapPoint) : ℚ :=
  let a := _latlon_to_xy cos_lat0 p1.lat p1.lon lat0 lon0
  let b := _latlon_to_xy cos_lat0 p2.lat p2.lon lat0 lon0
  hyp (b.1 - a.1) (b.2 - a.2)

/-- The interior points inserted by `_densify_points` between a consecutive
pair: when the planar length exceeds `max_step_m`, the
`n = int(seg_len // max_step_m)` evenly spaced points `t = k/(n+1)`. -/
def densInterior (hyp : ℚ → ℚ → ℚ) (cos_lat0 lat0 lon0 max_step_m : ℚ)
    (p1 p2 : SnapPoint) : List SnapPoint :=
  let a := _latlon_to_xy cos_lat0 p1.lat p1.lon lat0 lon0
  let b := _latlon_to_xy cos_lat0 p2.lat p2.lon lat0 lon0
  let dx := b.1 - a.1
  let dy := b.2 - a.2
  let seg_len := hyp dx dy
  if max_step_m < seg_len then
    let n := (⌊seg_len / max_step_m⌋).toNat
    (List.range' 1 n).map (fun (k : Nat) =>
      let t := (k : ℚ) / ((n : ℚ) + 1)
      let xi := a.1 + dx * t
      let yi := a.2 + dy * t
      let ll := _xy_to_latlon cos_lat0 xi yi lat0 lon0
      ⟨ll.1, ll.2⟩)
  else []

/-- The `for i in range(len(points) - 1)` loop of `_densify_points`:
each original point followed by the inserted interior points, the last
original point appended at the end. -/
def densGo (hyp : ℚ → ℚ → ℚ) (cos_lat0 lat0 lon0 max_step_m : ℚ) :
    List SnapPoint → List SnapPoint
  | [] => []
  | [p] => [p]
  | p :: q :: rest =>
    p :: (densInterior hyp cos_lat0 lat0 lon0 max_step_m p q
      ++ densGo hyp cos_lat0 lat0 lon0 max_step_m (q :: rest))

/-- `backend/main.py`, `_densify_points`. -/
def _densify_points (hyp : ℚ → ℚ → ℚ) (cos_lat0 lat0 lon0 : ℚ)
    (points : List SnapPoint) (max_step_m : ℚ) : List SnapPoint :=
  if points.length < 2 then points
  else densGo hyp cos_lat0 lat0 lon0 max_step_m points

/-- The per-point nearest-segment projection of `snap_route`: scan all
segments for the closest clamped projection, keep the user point when the
best (squared) distance exceeds `MAX_SNAP_DIST_M = 60` (squared: 3600) or
no segment exists. -/
def snapOnePoint (cos_lat0 lat0 lon0 : ℚ) (segments : List (ℚ × ℚ × ℚ × ℚ))
    (p : SnapPoint) : SnapPoint :=
  let pxy := _latlon_to_xy cos_lat0 p.lat p.lon lat0 lon0
  let best := segments.foldl
    (fun (acc : Option (ℚ × ℚ × ℚ)) seg =>
      let a := _latlon_to_xy cos_lat0 seg.1 seg.2.1 lat0 lon0
      let b := _latlon_to_xy cos_lat0 seg.2.2.1 seg.2.2.2 lat0 lon0
      let pr := _project_point_to_segment pxy.1 pxy.2 a.1 a.2 b.1 b.2
      match acc with
      | none => some (pr.2.2, pr.1, pr.2.1)
      | some bd => if pr.2.2 < bd.1 then some (pr.2.2, pr.1, pr.2.1) else acc)
    none
  match best with
  | none => p
  | some bd =>
    if (3600 : ℚ) < bd.1 then p
    else
      let ll := _xy_to_latlon cos_lat0 bd.2.1 bd.2.2 lat0 lon0
      ⟨ll.1, ll.2⟩

/-- Replace the last element of a list (`snapped_dense[-1] = ...`). -/
def setLast (l : List SnapPoint) (x : SnapPoint) : List SnapPoint :=
  match l with
  | [] => []
  | [_] => [x]
  | a :: b :: rest => a :: setLast (b :: rest) x

/-- `backend/main.py`, `snap_route`: densify, project every densified point
onto the nearest road segment, then force the first and last output points
back to the original input coordinates. -/
def snap_route (hyp : ℚ → ℚ → ℚ) (cos_lat0 : ℚ) (g : Graph) (lat0 lon0 : ℚ)
    (points : List SnapPoint) : List SnapPoint :=
  if g.nodes = [] then points
  else if points.length = 0 then []
  else
    let dense_pts := _densify_points hyp cos_lat0 lat0 lon0 points (25 : ℚ)
    let segments := _build_segments_for_snap g
    if segments = [] then points
    else
      let snapped_dense := dense_pts.map (snapOnePoint cos_lat0 lat0 lon0 segments)
      let withFirst :=
        match snapped_dense, points.head? with
        | [], _ => []
        | _ :: srest, some p0 => (⟨p0.lat, p0.lon⟩ : SnapPoint) :: srest
        | l, none => l
      match points.getLast? with
      | some pl => setLast withFirst ⟨pl.lat, pl.lon⟩
      | none => withFirst

instance : DecidableEq (Except String (Option RouteResult)) := fun a b =>
  match a, b with
  | .error x, .error y => decidable_of_iff (x = y) (by simp)
  | .ok x, .ok y => decidable_of_iff (x = y) (by simp)
  | .error _, .ok _ => isFalse (by simp)
  | .ok _, .error _ => isFalse (by simp)

theorem add_undirected_mem_fst (adjacency : List (NodeId × List Edge))
    (u v : NodeId) (d : ℚ) (rt : String) (eu ev : ℚ) :
    (⟨u, v, d, rt, max (ev - eu) 0⟩ : Edge) ∈
      (aget (_add_undirected_edge adjacency u v d rt eu ev) u).getD [] := by
  unfold _add_undirected_edge
  by_cases huv : v = u
  · subst huv
    simp only [aget_aset_self, Option.getD_some]
    simp
  · rw [aget_aset_ne _ _ _ _ huv, aget_aset_self]
    simp

theorem add_undirected_mem_snd (adjacency : List (NodeId × List Edge))
    (u v : NodeId) (d : ℚ) (rt : String) (eu ev : ℚ) :
    (⟨v, u, d, rt, max (eu - ev) 0⟩ : Edge) ∈
      (aget (_add_undirected_edge adjacency u v d rt eu ev) v).getD [] := by
  unfold _add_undirected_edge
  rw [aget_aset_self]
  simp

/-- Claim C6: for every physical connection added by `_add_undirected_edge`
with endpoints `u`, `v`, distance `d`, road type `rt` and endpoint
elevations `eu`, `ev`, both directed edges are added, carrying the same
distance and road type, with gains `max (ev - eu) 0` and `max (eu - ev) 0`;
hence with equal elevations both gains are zero, and with different
elevations exactly one direction has a positive gain and the other zero. -/
theorem C6_undirected_edge_symmetry (adjacency : List (NodeId × List Edge))
    (u v : NodeId) (d : ℚ) (rt : String) (eu ev : ℚ) :
    (⟨u, v, d, rt, max (ev - eu) 0⟩ : Edge) ∈
      (aget (_add_undirected_edge adjacency u v d rt eu ev) u).getD [] ∧
    (⟨v, u, d, rt, max (eu - ev) 0⟩ : Edge) ∈
      (aget (_add_undirected_edge adjacency u v d rt eu ev) v).getD [] ∧
    (eu = ev → max (ev - eu) 0 = 0 ∧ max (eu - ev) 0 = 0) ∧
    (eu ≠ ev →
      (0 < max (ev - eu) 0 ∧ max (eu - ev) 0 = 0) ∨
      (max (ev - eu) 0 = 0 ∧ 0 < max (eu - ev) 0)) := by
  refine ⟨add_undirected_mem_fst .., add_undirected_mem_snd .., ?_, ?_⟩
  · intro h
    subst h
    simp
  · intro h
    rcases lt_or_gt_of_ne h with hlt | hgt
    · left
      constructor
      · rw [max_eq_left (by linarith)]
        linarith
      · rw [max_eq_right (by linarith)]
    · right
      constructor
      · rw [max_eq_right (by linarith)]
      · rw [max_eq_left (by linarith)]
        linarith

/-- Witness for C6 at a concrete instance (empty adjacency, elevations 0
and 1). -/
theorem C6_undirected_edge_symmetry_witness :
    (⟨("a"), ("b"), 5, ("path"), max ((1 : ℚ) - 0) 0⟩ : Edge) ∈
      (aget (_add_undirected_edge [] ("a") ("b") 5 ("path") 0 1) ("a")).getD [] ∧
    (⟨("b"), ("a"), 5, ("path"), max ((0 : ℚ) - 1) 0⟩ : Edge) ∈
      (aget (_add_undirected_edge [] ("a") ("b") 5 ("path") 0 1) ("b")).getD [] ∧
    ((0 : ℚ) = 1 → max ((1 : ℚ) - 0) 0 = 0 ∧ max ((0 : ℚ) - 1) 0 = 0) ∧
    ((0 : ℚ) ≠ 1 →
      (0 < max ((1 : ℚ) - 0) 0 ∧ max ((0 : ℚ) - 1) 0 = 0) ∨
      (max ((1 : ℚ) - 0) 0 = 0 ∧ 0 < max ((0 : ℚ) - 1) 0)) :=
  C6_undirected_edge_symmetry [] ("a") ("b") 5 ("path") 0 1

/-- A concrete three-node cycle graph (all edges 100 m, residential, flat),
used to instantiate witnesses. -/
def gTriangle : Graph :=
  ⟨[(("a"), ⟨("a"), ("a"), 0, 0, 0⟩), (("b"), ⟨("b"), ("b"), 0, 0, 0⟩),
    (("c"), ⟨("c"), ("c"), 0, 0, 0⟩)],
   [(("a"), [⟨("a"), ("b"), 100, ("residential"), 0⟩, ⟨("a"), ("c"), 100, ("residential"), 0⟩]),
    (("b"), [⟨("b"), ("a"), 100, ("residential"), 0⟩, ⟨("b"), ("c"), 100, ("residential"), 0⟩]),
    (("c"), [⟨("c"), ("a"), 100, ("residential"), 0⟩, ⟨("c"), ("b"), 100, ("residential"), 0⟩])]⟩

/-- Claim C9: `find_best_loop` fails with the unknown-start error exactly
when the start id is not a node id of the graph, producing no result in
that case, and never fails for a start id present in the graph. (In the
embedding the `raise` happens in the first conditional, before any search
work, and yields `Except.error`, which carries no `RouteResult`.) -/
theorem C9_unknown_start_error (g : Graph) (start : NodeId)
    (d_min_m d_max_m elev_limit_m target_m : ℚ) :
    (aget g.nodes start = none →
      find_best_loop g start d_min_m d_max_m elev_limit_m target_m =
        .error ("Start node not in graph")) ∧
    ((aget g.nodes start).isSome →
      ∀ msg, find_best_loop g start d_min_m d_max_m elev_limit_m target_m ≠ .error msg) := by
  constructor
  · intro h
    simp [find_best_loop, h]
  · intro h msg
    simp only [find_best_loop]
    cases hx : aget g.nodes start with
    | none => rw [hx] at h; simp at h
    | some n =>
      simp only [hx, Option.isNone_some, Bool.false_eq_true, if_false]
      split <;> simp

/-- Witness for C9: the triangle graph with an absent start id yields the
error, and with a present start id never does. -/
theorem C9_unknown_start_error_witness :
    find_best_loop gTriangle ("z") 250 350 1000 300 =
      .error ("Start node not in graph") :=
  (C9_unknown_start_error gTriangle ("z") 250 350 1000 300).1 rfl

theorem densInterior_eq_nil_of_le (hyp : ℚ → ℚ → ℚ) (c la lo ms : ℚ)
    (p q : SnapPoint) (h : planarSegLen hyp c la lo p q ≤ ms) :
    densInterior hyp c la lo ms p q = [] := by
  simp only [densInterior, planarSegLen] at h ⊢
  rw [if_neg (not_lt.2 h)]

theorem densInterior_of_lt (hyp : ℚ → ℚ → ℚ) (c la lo ms : ℚ)
    (p q : SnapPoint) (h : ms < planarSegLen hyp c la lo p q) :
    densInterior hyp c la lo ms p q =
      (List.range' 1 ((⌊planarSegLen hyp c la lo p q / ms⌋).toNat)).map
        (fun (k : Nat) =>
          let a := _latlon_to_xy c p.lat p.lon la lo
          let b := _latlon_to_xy c q.lat q.lon la lo
          let t := (k : ℚ) / (((⌊planarSegLen hyp c la lo p q / ms⌋).toNat : ℚ) + 1)
          let ll := _xy_to_latlon c (a.1 + (b.1 - a.1) * t) (a.2 + (b.2 - a.2) * t) la lo
          ⟨ll.1, ll.2⟩) := by
  simp only [densInterior, planarSegLen] at h ⊢
  rw [if_pos h]

theorem densInterior_ne_nil (hyp : ℚ → ℚ → ℚ) (c la lo : ℚ)
    (p q : SnapPoint) (h : (25 : ℚ) < planarSegLen hyp c la lo p q) :
    densInterior hyp c la lo 25 p q ≠ [] := by
  rw [densInterior_of_lt hyp c la lo 25 p q h]
  have h1 : (1 : ℚ) ≤ planarSegLen hyp c la lo p q / 25 := by
    rw [le_div_iff₀ (by norm_num)]
    linarith
  have h2 : (1 : ℤ) ≤ ⌊planarSegLen hyp c la lo p q / 25⌋ := by
    rw [Int.le_floor]
    exact_mod_cast h1
  have h3 : 1 ≤ (⌊planarSegLen hyp c la lo p q / 25⌋).toNat := by omega
  intro hc
  have hlen := congrArg List.length hc
  rw [List.length_map, List.length_range'] at hlen
  simp only [List.length_nil] at hlen
  omega

theorem densGo_len_ge (hyp : ℚ → ℚ → ℚ) (c la lo ms : ℚ) (pts : List SnapPoint) :
    pts.length ≤ (densGo hyp c la lo ms pts).length := by
  induction pts with
  | nil => simp [densGo]
  | cons p rest ih =>
    cases rest with
    | nil => simp [densGo]
    | cons q rest2 =>
      simp only [densGo, List.length_cons, List.length_append]
      simp only [List.length_cons] at ih
      omega

theorem densGo_sublist (hyp : ℚ → ℚ → ℚ) (c la lo ms : ℚ) (pts : List SnapPoint) :
    pts.Sublist (densGo hyp c la lo ms pts) := by
  induction pts with
  | nil => simp [densGo]
  | cons p rest ih =>
    cases rest with
    | nil => simp [densGo]
    | cons q rest2 =>
      simp only [densGo]
      exact (ih.trans (List.sublist_append_right _ _)).cons₂ p

theorem densGo_len_eq_iff (hyp : ℚ → ℚ → ℚ) (c la lo : ℚ) (pts : List SnapPoint) :
    (densGo hyp c la lo 25 pts).length = pts.length ↔
      List.Chain' (fun p q => planarSegLen hyp c la lo p q ≤ 25) pts := by
  induction pts with
  | nil => simp [densGo]
  | cons p rest ih =>
    cases rest with
    | nil => simp [densGo]
    | cons q rest2 =>
      rw [List.chain'_cons, ← ih]
      simp only [densGo, List.length_cons, List.length_append]
      have hge := densGo_len_ge hyp c la lo 25 (q :: rest2)
      simp only [List.length_cons] at hge
      constructor
      · intro h
        have hnil : densInterior hyp c la lo 25 p q = [] := by
          by_contra hne
          have hlen : 1 ≤ (densInterior hyp c la lo 25 p q).length :=
            Nat.one_le_iff_ne_zero.2 (fun h0 => hne (List.length_eq_zero.1 h0))
          omega
        have hle : planarSegLen hyp c la lo p q ≤ 25 := by
          by_contra hgt
          exact densInterior_ne_nil hyp c la lo p q (not_le.1 hgt) hnil
        have hlen0 : (densInterior hyp c la lo 25 p q).length = 0 := by
          rw [hnil]; rfl
        exact ⟨hle, by omega⟩
      · intro h
        rw [densInterior_eq_nil_of_le hyp c la lo 25 p q h.1]
        simp only [List.length_nil]
        omega

/-- Claim C8: densification never removes points (output length is at least
the input length), the lengths agree exactly when every consecutive pair is
at most 25 m apart in planar coordinates, the original points are preserved
in order, and each consecutive pair farther apart than 25 m receives
exactly `floor(segment_length / 25)` evenly spaced interior points
(`t = k / (n + 1)` along the planar segment) inserted between the two. -/
theorem C8_densify_monotone (hyp : ℚ → ℚ → ℚ) (c la lo : ℚ) (pts : List SnapPoint) :
    pts.length ≤ (_densify_points hyp c la lo pts 25).length ∧
    ((_densify_points hyp c la lo pts 25).length = pts.length ↔
      List.Chain' (fun p q => planarSegLen hyp c la lo p q ≤ 25) pts) ∧
    pts.Sublist (_densify_points hyp c la lo pts 25) ∧
    (∀ p q : SnapPoint, planarSegLen hyp c la lo p q ≤ 25 →
      densInterior hyp c la lo 25 p q = []) ∧
    (∀ p q : SnapPoint, (25 : ℚ) < planarSegLen hyp c la lo p q →
      densInterior hyp c la lo 25 p q =
        (List.range' 1 ((⌊planarSegLen hyp c la lo p q / 25⌋).toNat)).map
          (fun (k : Nat) =>
            let a := _latlon_to_xy c p.lat p.lon la lo
            let b := _latlon_to_xy c q.lat q.lon la lo
            let t := (k : ℚ) / (((⌊planarSegLen hyp c la lo p q / 25⌋).toNat : ℚ) + 1)
            let ll := _xy_to_latlon c (a.1 + (b.1 - a.1) * t) (a.2 + (b.2 - a.2) * t) la lo
            ⟨ll.1, ll.2⟩)) ∧
    (∀ (p q : SnapPoint) (rest : List SnapPoint),
      _densify_points hyp c la lo (p :: q :: rest) 25 =
        p :: (densInterior hyp c la lo 25 p q ++ densGo hyp c la lo 25 (q :: rest))) := by
  refine ⟨?_, ?_, ?_, densInterior_eq_nil_of_le hyp c la lo 25,
    densInterior_of_lt hyp c la lo 25, ?_⟩
  · simp only [_densify_points]
    split
    · exact le_rfl
    · exact densGo_len_ge hyp c la lo 25 pts
  · simp only [_densify_points]
    split
    · rename_i hlt
      constructor
      · intro _
        match pts, hlt with
        | [], _ => simp
        | [p], _ => simp
      · intro _
        rfl
    · exact densGo_len_eq_iff hyp c la lo pts
  · simp only [_densify_points]
    split
    · exact List.Sublist.refl pts
    · exact densGo_sublist hyp c la lo 25 pts
  · intro p q rest
    simp only [_densify_points, List.length_cons]
    rw [if_neg (by omega)]
    rfl

/-- Witness for C8 at a concrete input (two points 55.66 m apart with the
planar length measured by an explicit hypotenuse model). -/
theorem C8_densify_monotone_witness :
    let hyp : ℚ → ℚ → ℚ := fun x y => |x| + |y|
    ([⟨0, 0⟩, ⟨0, (1 : ℚ) / 2000⟩] : List SnapPoint).length ≤
      (_densify_points hyp 1 0 0 [⟨0, 0⟩, ⟨0, (1 : ℚ) / 2000⟩] 25).length :=
  (C8_densify_monotone (fun x y => |x| + |y|) 1 0 0 [⟨0, 0⟩, ⟨0, (1 : ℚ) / 2000⟩]).1

theorem densify_len_ge (hyp : ℚ → ℚ → ℚ) (c la lo : ℚ) (pts : List SnapPoint) (ms : ℚ) :
    pts.length ≤ (_densify_points hyp c la lo pts ms).length := by
  simp only [_densify_points]
  split
  · exact le_rfl
  · exact densGo_len_ge hyp c la lo ms pts

theorem setLast_length (l : List SnapPoint) (x : SnapPoint) :
    (setLast l x).length = l.length := by
  induction l with
  | nil => rfl
  | cons a rest ih =>
    cases rest with
    | nil => rfl
    | cons b rest2 =>
      simp only [setLast, List.length_cons]
      simp only [List.length_cons] at ih
      omega

theorem getLast?_cons_of_ne_nil {α : Type} (a : α) (l : List α) (h : l ≠ []) :
    (a :: l).getLast? = l.getLast? := by
  cases l with
  | nil => exact absurd rfl h
  | cons b rest => exact List.getLast?_cons_cons ..

theorem setLast_getLast? (l : List SnapPoint) (x : SnapPoint) (h : l ≠ []) :
    (setLast l x).getLast? = some x := by
  induction l with
  | nil => exact absurd rfl h
  | cons a rest ih =>
    cases rest with
    | nil => rfl
    | cons b rest2 =>
      have hne : setLast (b :: rest2) x ≠ [] := by
        intro hc
        have := congrArg List.length hc
        rw [setLast_length] at this
        simp at this
      simp only [setLast]
      rw [getLast?_cons_of_ne_nil _ _ hne]
      exact ih (by simp)

theorem setLast_head? (l : List SnapPoint) (x : SnapPoint) (h : 2 ≤ l.length) :
    (setLast l x).head? = l.head? := by
  match l, h with
  | a :: b :: rest, _ => rfl

/-- Claim C7: for every non-empty input to `snap_route` (over every graph,
projection constant and hypotenuse model), the first output coordinate is
exactly the first input coordinate and the last output coordinate is
exactly the last input coordinate. -/
theorem C7_snap_boundary (hyp : ℚ → ℚ → ℚ) (c : ℚ) (g : Graph) (la lo : ℚ)
    (pts : List SnapPoint) (h : pts ≠ []) :
    (snap_route hyp c g la lo pts).head? = pts.head? ∧
    (snap_route hyp c g la lo pts).getLast? = pts.getLast? := by
  simp only [snap_route]
  split
  · exact ⟨rfl, rfl⟩
  · split
    · rename_i hlen
      exact absurd (List.length_eq_zero.1 hlen) h
    · split
      · exact ⟨rfl, rfl⟩
      · rename_i hg hlen hseg
        obtain ⟨p0, ptail, rfl⟩ : ∃ p0 ptail, pts = p0 :: ptail := by
          cases pts with
          | nil => exact absurd rfl h
          | cons p0 ptail => exact ⟨p0, ptail, rfl⟩
        have hdlen : (p0 :: ptail).length ≤
            (_densify_points hyp c la lo (p0 :: ptail) 25).length :=
          densify_len_ge hyp c la lo (p0 :: ptail) (25 : ℚ)
        cases hsn : (_densify_points hyp c la lo (p0 :: ptail) (25 : ℚ)).map
            (snapOnePoint c la lo (_build_segments_for_snap g)) with
        | nil =>
          exfalso
          have := congrArg List.length hsn
          rw [List.length_map] at this
          simp only [List.length_nil] at this
          rw [this] at hdlen
          simp at hdlen
        | cons s0 srest =>
          have hlast : ∃ pl, (p0 :: ptail).getLast? = some pl :=
            ⟨(p0 :: ptail).getLast (by simp), List.getLast?_eq_getLast ..⟩
          obtain ⟨pl, hpl⟩ := hlast
          simp only [hsn, hpl, List.head?_cons]
          rcases Nat.lt_or_ge (p0 :: ptail).length 2 with h2 | h2
          · -- singleton input: densify returns it unchanged, head = last
            have hpt : ptail = [] := by
              simp only [List.length_cons] at h2
              exact List.length_eq_zero.1 (by omega)
            subst hpt
            have hdlen1 : (_densify_points hyp c la lo [p0] (25 : ℚ)).length = 1 := rfl
            have hln := congrArg List.length hsn
            rw [List.length_map, hdlen1] at hln
            simp only [List.length_cons] at hln
            have hsrest : srest = [] := List.length_eq_zero.1 (by omega)
            subst hsrest
            have hpl0 : pl = p0 := by
              rw [show ([p0] : List SnapPoint).getLast? = some p0 from rfl] at hpl
              exact (Option.some_inj.1 hpl).symm
            subst hpl0
            exact ⟨rfl, rfl⟩
          · have hslen : 1 ≤ srest.length := by
              have hln := congrArg List.length hsn
              rw [List.length_map] at hln
              simp only [List.length_cons] at hln h2 hdlen
              omega
            constructor
            · rw [setLast_head? _ _ (by simp only [List.length_cons]; omega)]
              rfl
            · rw [setLast_getLast? _ _ (by simp)]

/-- Witness for C7: a concrete one-point snap on the triangle graph keeps
its boundary coordinates. -/
theorem C7_snap_boundary_witness :
    (snap_route (fun x y => x + y) 1 gTriangle 0 0 [⟨1, 2⟩]).head? =
      ([⟨1, 2⟩] : List SnapPoint).head? ∧
    (snap_route (fun x y => x + y) 1 gTriangle 0 0 [⟨1, 2⟩]).getLast? =
      ([⟨1, 2⟩] : List SnapPoint).getLast? :=
  C7_snap_boundary (fun x y => x + y) 1 gTriangle 0 0 [⟨1, 2⟩] (by simp)

/-- The aggregate properties every `RouteResult` kept by the candidate loop
satisfies: the distance and elevation filters, and the stored fields being
exactly the recomputed aggregates and score. -/
def goodResult (g : Graph) (d_min_m d_max_m elev_limit_m target_m : ℚ)
    (r : RouteResult) : Prop :=
  d_min_m ≤ r.distance_m ∧ r.distance_m ≤ d_max_m ∧
  r.elevation_gain_m ≤ elev_limit_m ∧
  r.distance_m = (_path_distance_and_elevation g r.nodes).1 ∧
  r.elevation_gain_m = (_path_distance_and_elevation g r.nodes).2.1 ∧
  r.score = (_path_distance_and_elevation g r.nodes).2.2 +
    5 * ((_path_distance_and_elevation g r.nodes).1 - target_m) ^ 2 +
    300 * (reuseCount r.nodes : ℚ)

theorem tryCandidate_good (g : Graph) (start : NodeId)
    (d_min_m d_max_m elev_limit_m target_m : ℚ)
    (prev_fw : List (NodeId × Option NodeId)) (best : Option RouteResult)
    (c : ℚ × NodeId)
    (hbest : ∀ r, best = some r → goodResult g d_min_m d_max_m elev_limit_m target_m r) :
    ∀ r, tryCandidate g start d_min_m d_max_m elev_limit_m target_m prev_fw best c = some r →
      goodResult g d_min_m d_max_m elev_limit_m target_m r := by
  intro r hr
  simp only [tryCandidate] at hr
  split at hr
  · exact hbest r hr
  · split at hr
    · exact hbest r hr
    · split at hr
      · exact hbest r hr
      · split at hr
        · exact hbest r hr
        · split at hr
          · exact hbest r hr
          · split at hr
            · exact hbest r hr
            · split at hr
              · exact hbest r hr
              · split at hr
                · exact hbest r hr
                · split at hr
                  · exact hbest r hr
                  · rename_i hd1 hd2 he
                    -- a fresh or improved candidate is recorded
                    split at hr
                    · cases hr
                      refine ⟨not_lt.1 hd1, not_lt.1 hd2, not_lt.1 he, rfl, rfl, ?_⟩
                      rw [sq_abs]
                    · split at hr
                      · cases hr
                        refine ⟨not_lt.1 hd1, not_lt.1 hd2, not_lt.1 he, rfl, rfl, ?_⟩
                        rw [sq_abs]
                      · exact hbest r hr

theorem foldl_tryCandidate_good (g : Graph) (start : NodeId)
    (d_min_m d_max_m elev_limit_m target_m : ℚ)
    (prev_fw : List (NodeId × Option NodeId)) (cands : List (ℚ × NodeId))
    (best : Option RouteResult)
    (hbest : ∀ r, best = some r → goodResult g d_min_m d_max_m elev_limit_m target_m r) :
    ∀ r, cands.foldl (tryCandidate g start d_min_m d_max_m elev_limit_m target_m prev_fw) best
        = some r →
      goodResult g d_min_m d_max_m elev_limit_m target_m r := by
  induction cands generalizing best with
  | nil => exact hbest
  | cons c cs ih =>
    intro r hr
    exact ih _ (tryCandidate_good g start d_min_m d_max_m elev_limit_m target_m
      prev_fw best c hbest) r hr

theorem find_best_loop_good (g : Graph) (start : NodeId)
    (d_min_m d_max_m elev_limit_m target_m : ℚ) (r : RouteResult)
    (h : find_best_loop g start d_min_m d_max_m elev_limit_m target_m =
      Except.ok (some r)) :
    goodResult g d_min_m d_max_m elev_limit_m target_m r := by
  simp only [find_best_loop] at h
  split at h
  · exact absurd h (by simp)
  · split at h
    · simp at h
    · rw [Except.ok.injEq] at h
      exact foldl_tryCandidate_good g start d_min_m d_max_m elev_limit_m target_m
        _ _ none (by simp) r h

/-- Claim C2: every non-null `RouteResult` returned by `find_best_loop`
satisfies `d_min_m <= distance_m <= d_max_m` and
`elevation_gain_m <= elev_limit_m`. -/
theorem C2_constraint_satisfaction (g : Graph) (start : NodeId)
    (d_min_m d_max_m elev_limit_m target_m : ℚ) (r : RouteResult)
    (h : find_best_loop g start d_min_m d_max_m elev_limit_m target_m =
      Except.ok (some r)) :
    d_min_m ≤ r.distance_m ∧ r.distance_m ≤ d_max_m ∧
      r.elevation_gain_m ≤ elev_limit_m := by
  obtain ⟨h1, h2, h3, -, -, -⟩ :=
    find_best_loop_good g start d_min_m d_max_m elev_limit_m target_m r h
  exact ⟨h1, h2, h3⟩

unseal Rat.mul Rat.add Rat.sub Rat.inv Rat.ofScientific in
/-- Witness for C2: the triangle loop found from node a. -/
theorem C2_constraint_satisfaction_witness :
    (250 : ℚ) ≤ (⟨[("a"), ("c"), ("b"), ("a")], 300, 0, 300⟩ : RouteResult).distance_m ∧
    (⟨[("a"), ("c"), ("b"), ("a")], 300, 0, 300⟩ : RouteResult).distance_m ≤ 350 ∧
    (⟨[("a"), ("c"), ("b"), ("a")], 300, 0, 300⟩ : RouteResult).elevation_gain_m ≤ 1000 :=
  C2_constraint_satisfaction gTriangle ("a") 250 350 1000 300
    ⟨[("a"), ("c"), ("b"), ("a")], 300, 0, 300⟩ (by decide)

/-- Claim C4: for every non-null `RouteResult` of `find_best_loop`,
recomputing the aggregates from the node sequence with
`_path_distance_and_elevation` (raw distances, non-negative gains, Cost
Model costs) reproduces the stored `distance_m` and `elevation_gain_m`
exactly, and the stored score is
`cost + 5 * (distance - target)^2 + 300 * reuse`, where reuse counts the
repeated unordered consecutive pairs beyond their first occurrence. -/
theorem C4_idempotent_rescoring (g : Graph) (start : NodeId)
    (d_min_m d_max_m elev_limit_m target_m : ℚ) (r : RouteResult)
    (h : find_best_loop g start d_min_m d_max_m elev_limit_m target_m =
      Except.ok (some r)) :
    r.distance_m = (_path_distance_and_elevation g r.nodes).1 ∧
    r.elevation_gain_m = (_path_distance_and_elevation g r.nodes).2.1 ∧
    r.score = (_path_distance_and_elevation g r.nodes).2.2 +
      5 * ((_path_distance_and_elevation g r.nodes).1 - target_m) ^ 2 +
      300 * (reuseCount r.nodes : ℚ) := by
  obtain ⟨-, -, -, h4, h5, h6⟩ :=
    find_best_loop_good g start d_min_m d_max_m elev_limit_m target_m r h
  exact ⟨h4, h5, h6⟩

unseal Rat.mul Rat.add Rat.sub Rat.inv Rat.ofScientific in
/-- Witness for C4: re-scoring the concrete triangle loop. -/
theorem C4_idempotent_rescoring_witness :
    (⟨[("a"), ("c"), ("b"), ("a")], 300, 0, 300⟩ : RouteResult).distance_m =
      (_path_distance_and_elevation gTriangle
        (⟨[("a"), ("c"), ("b"), ("a")], 300, 0, 300⟩ : RouteResult).nodes).1 ∧
    (⟨[("a"), ("c"), ("b"), ("a")], 300, 0, 300⟩ : RouteResult).elevation_gain_m =
      (_path_distance_and_elevation gTriangle
        (⟨[("a"), ("c"), ("b"), ("a")], 300, 0, 300⟩ : RouteResult).nodes).2.1 ∧
    (⟨[("a"), ("c"), ("b"), ("a")], 300, 0, 300⟩ : RouteResult).score =
      (_path_distance_and_elevation gTriangle
        (⟨[("a"), ("c"), ("b"), ("a")], 300, 0, 300⟩ : RouteResult).nodes).2.2 +
      5 * ((_path_distance_and_elevation gTriangle
        (⟨[("a"), ("c"), ("b"), ("a")], 300, 0, 300⟩ : RouteResult).nodes).1 - 300) ^ 2 +
      300 * (reuseCount (⟨[("a"), ("c"), ("b"), ("a")], 300, 0, 300⟩ : RouteResult).nodes : ℚ) :=
  C4_idempotent_rescoring gTriangle ("a") 250 350 1000 300
    ⟨[("a"), ("c"), ("b"), ("a")], 300, 0, 300⟩ (by decide)

theorem relaxEdge_dist_nodup (pen : List ((NodeId × NodeId) × ℚ)) (maxd : ℚ)
    (u : NodeId) (d : ℚ) (st : DState) (e : Edge)
    (h : (st.dist.map Prod.fst).Nodup) :
    (((relaxEdge pen maxd u d st e).dist).map Prod.fst).Nodup := by
  simp only [relaxEdge]
  split
  · exact h
  · split
    · exact aset_keys_nodup _ _ _ h
    · exact h

theorem relaxEdges_dist_nodup (g : Graph) (pen : List ((NodeId × NodeId) × ℚ))
    (maxd : ℚ) (u : NodeId) (d : ℚ) (st : DState)
    (h : (st.dist.map Prod.fst).Nodup) :
    (((relaxEdges g pen maxd u d st).dist).map Prod.fst).Nodup := by
  simp only [relaxEdges]
  generalize ((aget g.adjacency u).getD []) = es
  induction es generalizing st with
  | nil => exact h
  | cons e es ih =>
    exact ih _ (relaxEdge_dist_nodup pen maxd u d st e h)

theorem dijkstraLoop_dist_nodup (g : Graph) (pen : List ((NodeId × NodeId) × ℚ))
    (maxd : ℚ) (fuel : Nat) (st : DState)
    (h : (st.dist.map Prod.fst).Nodup) :
    (((dijkstraLoop g pen maxd fuel st).dist).map Prod.fst).Nodup := by
  induction fuel generalizing st with
  | zero => exact h
  | succ n ih =>
    simp only [dijkstraLoop]
    split
    · exact h
    · split
      · exact ih _ h
      · split
        · exact ih _ h
        · exact ih _ (relaxEdges_dist_nodup g pen maxd _ _ _ h)

theorem dijkstra_dist_nodup (g : Graph) (start : NodeId) (maxd : ℚ)
    (pen : List ((NodeId × NodeId) × ℚ)) :
    (((_dijkstra g start maxd pen).1).map Prod.fst).Nodup := by
  simp only [_dijkstra]
  exact dijkstraLoop_dist_nodup g pen maxd _ _ (by simp)

theorem mem_insDesc (x y : ℚ × NodeId) (l : List (ℚ × NodeId)) :
    y ∈ insDesc x l ↔ (y = x ∨ y ∈ l) := by
  induction l with
  | nil => simp [insDesc]
  | cons z zs ih =>
    simp only [insDesc]
    split
    · simp only [List.mem_cons, ih]
      tauto
    · simp only [List.mem_cons]

theorem insDesc_sorted (x : ℚ × NodeId) (l : List (ℚ × NodeId))
    (h : l.Pairwise (fun a b => b.1 ≤ a.1)) :
    (insDesc x l).Pairwise (fun a b => b.1 ≤ a.1) := by
  induction l with
  | nil => simp [insDesc]
  | cons z zs ih =>
    rw [List.pairwise_cons] at h
    simp only [insDesc]
    split
    · rename_i hle
      rw [List.pairwise_cons]
      refine ⟨?_, ih h.2⟩
      intro y hy
      rcases (mem_insDesc x y zs).1 hy with rfl | hy2
      · -- lexLeB x z gives x.1 ≤ z.1
        simp only [lexLeB, Bool.or_eq_true, decide_eq_true_eq, Bool.and_eq_true] at hle
        rcases hle with hlt | ⟨heq, -⟩
        · exact le_of_lt hlt
        · exact le_of_eq heq
      · exact h.1 y hy2
    · rename_i hnle
      rw [List.pairwise_cons]
      have hzx : z.1 ≤ x.1 := by
        simp only [lexLeB, Bool.or_eq_true, decide_eq_true_eq, Bool.and_eq_true,
          not_or, not_and] at hnle
        exact le_of_not_lt hnle.1
      refine ⟨?_, List.Pairwise.cons h.1 h.2⟩
      intro y hy
      rcases List.mem_cons.1 hy with rfl | hy2
      · exact hzx
      · exact le_trans (h.1 y hy2) hzx

theorem sortDesc_sorted (l : List (ℚ × NodeId)) :
    (sortDesc l).Pairwise (fun a b => b.1 ≤ a.1) := by
  simp only [sortDesc]
  induction l with
  | nil => simp
  | cons x xs ih => exact insDesc_sorted x _ ih

theorem mem_sortDesc (l : List (ℚ × NodeId)) (y : ℚ × NodeId) :
    y ∈ sortDesc l ↔ y ∈ l := by
  simp only [sortDesc]
  induction l with
  | nil => simp
  | cons x xs ih =>
    rw [List.foldr_cons, mem_insDesc, ih, List.mem_cons]

theorem mem_loopCandidates (dist_fw : List (NodeId × ℚ)) (d_min_m target_m : ℚ)
    (hnd : (dist_fw.map Prod.fst).Nodup) (d : ℚ) (v : NodeId) :
    (d, v) ∈ loopCandidates dist_fw d_min_m target_m ↔
      (aget dist_fw v = some d ∧ d_min_m * (0.4 : ℚ) ≤ d ∧ d ≤ target_m) := by
  simp only [loopCandidates, List.mem_map, List.mem_filter, Bool.and_eq_true,
    decide_eq_true_eq]
  constructor
  · rintro ⟨⟨v0, d0⟩, ⟨hm, h1, h2⟩, he⟩
    rcases Prod.mk.injEq .. ▸ he with ⟨rfl, rfl⟩
    exact ⟨mem_aget hnd hm, h1, h2⟩
  · rintro ⟨hm, h1, h2⟩
    exact ⟨(v, d), ⟨aget_mem hm, h1, h2⟩, rfl⟩

/-- Claim C5: the candidate turnaround set of `find_best_loop` is exactly
the reached nodes with `0.4 * d_min <= dist_fw[v] <= target`; when it is
empty the search returns no result; otherwise the candidates actually
tried are the sorted-by-descending-forward-distance prefix of at most 40
of them, and the fold over exactly that list produces the answer. -/
theorem C5_candidate_policy (g : Graph) (start : NodeId)
    (d_min_m d_max_m elev_limit_m target_m : ℚ)
    (hstart : (aget g.nodes start).isSome) :
    (∀ (d : ℚ) (v : NodeId),
      (d, v) ∈ loopCandidates (forwardRun g start d_max_m).1 d_min_m target_m ↔
        (aget (forwardRun g start d_max_m).1 v = some d ∧
          d_min_m * (0.4 : ℚ) ≤ d ∧ d ≤ target_m)) ∧
    (loopCandidates (forwardRun g start d_max_m).1 d_min_m target_m = [] →
      find_best_loop g start d_min_m d_max_m elev_limit_m target_m = .ok none) ∧
    (triedCandidates
        (loopCandidates (forwardRun g start d_max_m).1 d_min_m target_m)).Pairwise
      (fun a b => b.1 ≤ a.1) ∧
    (triedCandidates
        (loopCandidates (forwardRun g start d_max_m).1 d_min_m target_m)).length ≤ 40 ∧
    (loopCandidates (forwardRun g start d_max_m).1 d_min_m target_m ≠ [] →
      find_best_loop g start d_min_m d_max_m elev_limit_m target_m =
        .ok ((triedCandidates
            (loopCandidates (forwardRun g start d_max_m).1 d_min_m target_m)).foldl
          (tryCandidate g start d_min_m d_max_m elev_limit_m target_m
            (forwardRun g start d_max_m).2) none)) := by
  have hnotNone : ¬(aget g.nodes start).isNone := by
    rw [Option.isNone_iff_eq_none]
    intro hx
    rw [hx] at hstart
    simp at hstart
  refine ⟨?_, ?_, ?_, ?_, ?_⟩
  · exact mem_loopCandidates _ d_min_m target_m
      (dijkstra_dist_nodup g start d_max_m [])
  · intro hempty
    simp only [find_best_loop]
    rw [if_neg hnotNone, if_pos hempty]
  · exact (sortDesc_sorted _).sublist (List.take_sublist ..)
  · simp only [triedCandidates]
    exact List.length_take_le ..
  · intro hne
    simp only [find_best_loop]
    rw [if_neg hnotNone, if_neg hne]

unseal Rat.mul Rat.add Rat.sub Rat.inv Rat.ofScientific in
/-- Witness for C5: the policy at the concrete triangle search. -/
theorem C5_candidate_policy_witness :
    (triedCandidates
      (loopCandidates (forwardRun gTriangle ("a") 350).1 250 300)).length ≤ 40 :=
  (C5_candidate_policy gTriangle ("a") 250 350 1000 300 (by decide)).2.2.2.1

/-- The penalty regime of the engine: every listed multiplier is at least 1
(the source always passes either no penalties or the constant 4.0). -/
def penGe1 (pen : List ((NodeId × NodeId) × ℚ)) : Prop :=
  ∀ k r, aget pen k = some r → (1 : ℚ) ≤ r

theorem penWeight_pos (pen : List ((NodeId × NodeId) × ℚ)) (hpen : penGe1 pen)
    (e : Edge) (he : 0 < e.distance_m) : 0 < penWeight pen e := by
  simp only [penWeight]
  rcases hk : aget pen (sortPair e.u e.v) with - | r
  · simpa [hk] using he
  · have h1 := hpen _ _ hk
    simp only [hk, Option.getD_some]
    positivity

/-- A walk of the graph as `_dijkstra` sees it: from `s`, along adjacency
edges with positive raw distance, accumulating `distance * penalty`
weights. `Reaches g pen s v c` states that some such walk from `s` ends at
`v` with total weight `c`; the least such `c` is the true shortest-path
distance under the penalty-adjusted weights. -/
inductive Reaches (g : Graph) (pen : List ((NodeId × NodeId) × ℚ)) (s : NodeId) :
    NodeId → ℚ → Prop
  | refl : Reaches g pen s s 0
  | step {u v : NodeId} {c : ℚ} {e : Edge} :
      Reaches g pen s u c → e ∈ (aget g.adjacency u).getD [] → e.v = v →
      0 < e.distance_m → Reaches g pen s v (c + penWeight pen e)

theorem Reaches_nonneg {g : Graph} {pen : List ((NodeId × NodeId) × ℚ)}
    {s v : NodeId} {c : ℚ} (hpen : penGe1 pen) (h : Reaches g pen s v c) : 0 ≤ c := by
  induction h with
  | refl => exact le_rfl
  | step hr he hv hd ih =>
    have := penWeight_pos _ hpen _ hd
    linarith

theorem lexLeB_fst_le {x y : ℚ × NodeId} (h : lexLeB x y = true) : x.1 ≤ y.1 := by
  simp only [lexLeB, Bool.or_eq_true, decide_eq_true_eq, Bool.and_eq_true] at h
  rcases h with h | ⟨h, -⟩
  · exact le_of_lt h
  · exact le_of_eq h

theorem lexLeB_false_fst_le {x y : ℚ × NodeId} (h : lexLeB x y = false) : y.1 ≤ x.1 := by
  simp only [lexLeB, Bool.or_eq_false_iff, decide_eq_false_iff_not] at h
  exact le_of_not_lt h.1

theorem popMin_eq_none (h : List (ℚ × NodeId)) : popMin h = none ↔ h = [] := by
  cases h with
  | nil => simp [popMin]
  | cons x xs =>
    simp only [popMin]
    rcases hx : popMin xs with - | ⟨m, rest⟩
    · simp
    · simp only []
      split <;> simp

theorem popMin_perm (h : List (ℚ × NodeId)) (m : ℚ × NodeId) (rest : List (ℚ × NodeId))
    (hp : popMin h = some (m, rest)) : h.Perm (m :: rest) := by
  induction h generalizing m rest with
  | nil => simp [popMin] at hp
  | cons x xs ih =>
    rcases hx : popMin xs with - | ⟨m', r'⟩
    · have hxs : xs = [] := (popMin_eq_none xs).1 hx
      subst hxs
      simp only [popMin, Option.some_inj, Prod.mk.injEq] at hp
      obtain ⟨rfl, rfl⟩ := hp
      exact List.Perm.refl _
    · simp only [popMin, hx] at hp
      split at hp
      · rename_i hcmp
        simp only [Option.some_inj, Prod.mk.injEq] at hp
        obtain ⟨rfl, rfl⟩ := hp
        exact List.Perm.refl _
      · simp only [Option.some_inj, Prod.mk.injEq] at hp
        obtain ⟨rfl, rfl⟩ := hp
        have h1 : xs.Perm (m' :: r') := ih m' r' hx
        exact (h1.cons x).trans (List.Perm.swap _ _ _)

theorem popMin_min (h : List (ℚ × NodeId)) (m : ℚ × NodeId) (rest : List (ℚ × NodeId))
    (hp : popMin h = some (m, rest)) : ∀ p ∈ h, m.1 ≤ p.1 := by
  induction h generalizing m rest with
  | nil => simp [popMin] at hp
  | cons x xs ih =>
    rcases hx : popMin xs with - | ⟨m', r'⟩
    · have hxs : xs = [] := (popMin_eq_none xs).1 hx
      subst hxs
      simp only [popMin, Option.some_inj, Prod.mk.injEq] at hp
      obtain ⟨rfl, rfl⟩ := hp
      intro p hpmem
      simp only [List.mem_singleton] at hpmem
      rw [hpmem]
    · simp only [popMin, hx] at hp
      split at hp <;> rename_i hcmp <;>
        simp only [Option.some_inj, Prod.mk.injEq] at hp <;>
        obtain ⟨rfl, rfl⟩ := hp
      · intro p hpmem
        rcases List.mem_cons.1 hpmem with rfl | hpm
        · exact le_rfl
        · exact le_trans (lexLeB_fst_le hcmp) (ih m' r' hx p hpm)
      · intro p hpmem
        rcases List.mem_cons.1 hpmem with rfl | hpm
        · exact lexLeB_false_fst_le (Bool.eq_false_iff.2 hcmp)
        · exact ih m' r' hx p hpm

/-- A node is settled when it has a recorded distance and no live heap
entry (every heap entry for it is stale). Settled nodes keep their
distance for the rest of the run. -/
def Settled (st : DState) (v : NodeId) : Prop :=
  (aget st.dist v).isSome ∧ ∀ p ∈ st.heap, p.2 = v → aget st.dist v ≠ some p.1

/-- Boolean form of `Settled`, used by the termination measure. -/
def settledB (st : DState) (v : NodeId) : Bool :=
  (aget st.dist v).isSome &&
    st.heap.all (fun p => !(decide (p.2 = v) && decide (aget st.dist v = some p.1)))

theorem settledB_iff (st : DState) (v : NodeId) : settledB st v = true ↔ Settled st v := by
  simp only [settledB, Settled, Bool.and_eq_true, List.all_eq_true, Bool.not_eq_true',
    Bool.and_eq_false_iff, decide_eq_false_iff_not]
  constructor
  · rintro ⟨h1, h2⟩
    refine ⟨h1, ?_⟩
    intro p hp hpv
    rcases h2 p hp with h | h
    · exact absurd hpv h
    · exact h
  · rintro ⟨h1, h2⟩
    refine ⟨h1, ?_⟩
    intro p hp
    by_cases hpv : p.2 = v
    · exact Or.inr (h2 p hp hpv)
    · exact Or.inl hpv

theorem filter_length_mono {α : Type} (l : List α) (p q : α → Bool)
    (h : ∀ v ∈ l, q v = true → p v = true) :
    (l.filter q).length ≤ (l.filter p).length := by
  induction l with
  | nil => simp
  | cons a as ih =>
    have ih2 := ih (fun v hv => h v (List.mem_cons_of_mem a hv))
    by_cases hq : q a = true
    · rw [List.filter_cons_of_pos hq, List.filter_cons_of_pos (h a (by simp) hq)]
      simpa using ih2
    · rw [List.filter_cons_of_neg (by simpa using hq)]
      cases hp : p a
      · rw [List.filter_cons_of_neg (by simp [hp])]
        exact ih2
      · rw [List.filter_cons_of_pos hp]
        exact le_trans ih2 (by simp)

theorem filter_length_lt {α : Type} (l : List α) (p q : α → Bool) (u : α)
    (hnd : l.Nodup) (hu : u ∈ l) (hpu : p u = true) (hqu : q u = false)
    (himp : ∀ v ∈ l, q v = true → p v = true) :
    (l.filter q).length < (l.filter p).length := by
  induction l with
  | nil => simp at hu
  | cons a as ih =>
    rw [List.nodup_cons] at hnd
    rcases List.mem_cons.1 hu with rfl | hu2
    · rw [List.filter_cons_of_pos hpu, List.filter_cons_of_neg (by simp [hqu])]
      have : (as.filter q).length ≤ (as.filter p).length :=
        filter_length_mono as p q (fun v hv => himp v (List.mem_cons_of_mem u hv))
      simpa using Nat.lt_succ_of_le this
    · have ih2 := ih hnd.2 hu2 (fun v hv => himp v (List.mem_cons_of_mem a hv))
      by_cases hq : q a = true
      · rw [List.filter_cons_of_pos hq, List.filter_cons_of_pos (himp a (by simp) hq)]
        simpa using ih2
      · rw [List.filter_cons_of_neg (by simpa using hq)]
        cases hp : p a
        · rw [List.filter_cons_of_neg (by simp [hp])]
          exact ih2
        · rw [List.filter_cons_of_pos hp]
          exact lt_of_lt_of_le ih2 (by simp)

/-- The termination measure of the `while heap:` loop: heap size plus
weighted count of not-yet-settled touchable nodes. Strictly decreases at
every iteration. -/
def dMeasure (g : Graph) (start : NodeId) (st : DState) : Nat :=
  st.heap.length + (degSum g start + 1) *
    ((touchable g start).filter (fun v => !(settledB st v))).length

theorem touchable_nodup (g : Graph) (start : NodeId) : (touchable g start).Nodup :=
  List.nodup_dedup _

theorem mem_touchable_of_edge (g : Graph) (start u : NodeId) (e : Edge)
    (he : e ∈ (aget g.adjacency u).getD []) : e.v ∈ touchable g start := by
  simp only [touchable, List.mem_dedup, List.mem_cons]
  right
  rcases hadj : aget g.adjacency u with - | l
  · rw [hadj] at he
    simp at he
  · rw [hadj] at he
    simp only [Option.getD_some] at he
    have hl : (u, l) ∈ g.adjacency := aget_mem hadj
    simp only [List.mem_flatten, List.mem_map]
    exact ⟨l.map (fun e => e.v), ⟨(u, l), hl, rfl⟩, List.mem_map.2 ⟨e, he, rfl⟩⟩

theorem start_mem_touchable (g : Graph) (start : NodeId) : start ∈ touchable g start := by
  simp [touchable, List.mem_dedup]

theorem outdeg_le_degSum (g : Graph) (start u : NodeId) (hu : u ∈ touchable g start) :
    outdeg g u ≤ degSum g start := by
  exact List.single_le_sum (by simp) _ (List.mem_map.2 ⟨u, hu, rfl⟩)

/-- The loop invariant of `_dijkstra` that does not mention settledness:
bookkeeping facts tying `dist`, `prev` and the heap together. -/
structure DCore (g : Graph) (pen : List ((NodeId × NodeId) × ℚ)) (start : NodeId)
    (maxd : ℚ) (st : DState) : Prop where
  dist_start : aget st.dist start = some 0
  prev_start : aget st.prev start = some none
  dom_eq : ∀ v, (aget st.dist v).isSome ↔ (aget st.prev v).isSome
  dist_nodup : (st.dist.map Prod.fst).Nodup
  prev_nodup : (st.prev.map Prod.fst).Nodup
  dist_nonneg : ∀ v dv, aget st.dist v = some dv → 0 ≤ dv
  dist_le : ∀ v dv, aget st.dist v = some dv → dv ≤ maxd ∨ (v = start ∧ dv = 0)
  dist_reach : ∀ v dv, aget st.dist v = some dv → Reaches g pen start v dv
  heap_dist : ∀ p ∈ st.heap, ∃ dv, aget st.dist p.2 = some dv ∧ dv ≤ p.1
  live_unique : ∀ v dv, aget st.dist v = some dv →
    (st.heap.filter (fun p => decide (p.2 = v) && decide (p.1 = dv))).length ≤ 1
  prev_edge : ∀ v w, aget st.prev v = some (some w) →
    ∃ e ∈ (aget g.adjacency w).getD [], e.v = v ∧ 0 < e.distance_m
  prev_lt : ∀ v w, aget st.prev v = some (some w) →
    ∃ dw dv, aget st.dist w = some dw ∧ aget st.dist v = some dv ∧ dw < dv
  prev_none : ∀ v, aget st.prev v = some none → v = start
  dist_touch : ∀ v, (aget st.dist v).isSome → v ∈ touchable g start

theorem relaxEdge_spec (g : Graph) (pen : List ((NodeId × NodeId) × ℚ))
    (start : NodeId) (maxd : ℚ) (u : NodeId) (d : ℚ)
    (hpen : penGe1 pen) (e : Edge) (he : e ∈ (aget g.adjacency u).getD [])
    (st : DState) (hcore : DCore g pen start maxd st)
    (hud : aget st.dist u = some d) (hd0 : 0 ≤ d) (hdm : d ≤ maxd)
    (hsle : ∀ v dv, aget st.dist v = some dv → Settled st v → dv ≤ d) :
    DCore g pen start maxd (relaxEdge pen maxd u d st e) ∧
    aget (relaxEdge pen maxd u d st e).dist u = some d ∧
    (∃ extra, (relaxEdge pen maxd u d st e).heap = st.heap ++ extra ∧
      extra.length ≤ 1 ∧ ∀ p ∈ extra, d < p.1) ∧
    (∀ v, Settled st v →
      aget (relaxEdge pen maxd u d st e).dist v = aget st.dist v ∧
      Settled (relaxEdge pen maxd u d st e) v) ∧
    (∀ v, Settled (relaxEdge pen maxd u d st e) v → Settled st v) ∧
    (∀ v dv, aget st.dist v = some dv →
      ∃ dv', aget (relaxEdge pen maxd u d st e).dist v = some dv' ∧ dv' ≤ dv) ∧
    (0 < e.distance_m → d + penWeight pen e ≤ maxd →
      ∃ dv, aget (relaxEdge pen maxd u d st e).dist e.v = some dv ∧
        dv ≤ d + penWeight pen e) := by
  simp only [relaxEdge]
  split
  · -- non-positive raw distance: nothing happens
    rename_i hle
    refine ⟨hcore, hud, ⟨[], by simp, by simp, by simp⟩,
      fun v hv => ⟨rfl, hv⟩, fun v hv => hv,
      fun v dv h => ⟨dv, h, le_rfl⟩, fun hpos => absurd hpos (not_lt.2 hle)⟩
  · rename_i hnle
    have hpos : 0 < e.distance_m := lt_of_not_le hnle
    have hw : 0 < penWeight pen e := penWeight_pos pen hpen e hpos
    split
    · -- the push branch
      rename_i hcond
      rw [Bool.and_eq_true, decide_eq_true_iff] at hcond
      have hbetter : ∀ dv0, aget st.dist e.v = some dv0 → d + penWeight pen e < dv0 := by
        intro dv0 hdv0
        have h1 := hcond.1
        rw [hdv0] at h1
        exact of_decide_eq_true h1
      have hndm : d + penWeight pen e ≤ maxd := hcond.2
      have hnd_gt : d < d + penWeight pen e := by linarith
      have hnd0 : (0 : ℚ) ≤ d + penWeight pen e := by linarith
      have hevu : e.v ≠ u := by
        intro heq
        rw [heq] at hbetter
        have := hbetter d hud
        linarith
      have hevs : e.v ≠ start := by
        intro heq
        rw [heq] at hbetter
        have := hbetter 0 hcore.dist_start
        linarith
      have hnotsettled : ¬Settled st e.v := by
        rintro hs
        rcases Option.isSome_iff_exists.1 hs.1 with ⟨dv0, hdv0⟩
        have h1 := hsle e.v dv0 hdv0 hs
        have h2 := hbetter dv0 hdv0
        linarith
      refine ⟨?_, ?_, ?_, ?_, ?_, ?_, ?_⟩
      · -- DCore for the pushed state
        refine ⟨?_, ?_, ?_, ?_, ?_, ?_, ?_, ?_, ?_, ?_, ?_, ?_, ?_, ?_⟩
        · simpa [aget_aset_ne _ _ _ _ hevs] using hcore.dist_start
        · simpa [aget_aset_ne _ _ _ _ hevs] using hcore.prev_start
        · intro v
          simp only [aget_aset_isSome]
          rw [hcore.dom_eq v]
        · exact aset_keys_nodup _ _ _ hcore.dist_nodup
        · exact aset_keys_nodup _ _ _ hcore.prev_nodup
        · intro v dv hdv
          by_cases hv : e.v = v
          · subst hv
            rw [aget_aset_self] at hdv
            cases hdv
            exact hnd0
          · rw [aget_aset_ne _ _ _ _ hv] at hdv
            exact hcore.dist_nonneg v dv hdv
        · intro v dv hdv
          by_cases hv : e.v = v
          · subst hv
            rw [aget_aset_self] at hdv
            cases hdv
            exact Or.inl hndm
          · rw [aget_aset_ne _ _ _ _ hv] at hdv
            exact hcore.dist_le v dv hdv
        · intro v dv hdv
          by_cases hv : e.v = v
          · subst hv
            rw [aget_aset_self] at hdv
            cases hdv
            exact Reaches.step (hcore.dist_reach u d hud) he rfl hpos
          · rw [aget_aset_ne _ _ _ _ hv] at hdv
            exact hcore.dist_reach v dv hdv
        · intro p hp
          simp only [List.mem_append, List.mem_singleton] at hp
          rcases hp with hp | rfl
          · rcases hcore.heap_dist p hp with ⟨dv, hdv, hle⟩
            by_cases hv : e.v = p.2
            · refine ⟨d + penWeight pen e, ?_, ?_⟩
              · rw [← hv, aget_aset_self]
              · rw [← hv] at hdv
                have := hbetter dv hdv
                linarith
            · exact ⟨dv, by rw [aget_aset_ne _ _ _ _ hv]; exact hdv, hle⟩
          · exact ⟨d + penWeight pen e, by simp [aget_aset_self], le_rfl⟩
        · intro v dv hdv
          rw [List.filter_append, List.length_append]
          by_cases hv : e.v = v
          · subst hv
            rw [aget_aset_self] at hdv
            cases hdv
            have hzero :
                (st.heap.filter (fun p =>
                  decide (p.2 = e.v) && decide (p.1 = d + penWeight pen e))).length = 0 := by
              rw [List.length_eq_zero]
              rw [List.filter_eq_nil_iff]
              intro p hp
              simp only [Bool.and_eq_true, decide_eq_true_eq, not_and]
              intro hpv hpe
              rcases hcore.heap_dist p hp with ⟨dv0, hdv0, hle0⟩
              rw [hpv] at hdv0
              have := hbetter dv0 hdv0
              rw [hpe] at hle0
              linarith
            rw [hzero]
            simp
          · rw [aget_aset_ne _ _ _ _ hv] at hdv
            have h1 := hcore.live_unique v dv hdv
            have h2 :
                (([(d + penWeight pen e, e.v)] : List (ℚ × NodeId)).filter
                  (fun p => decide (p.2 = v) && decide (p.1 = dv))).length = 0 := by
              simp [hv]
            omega
        · intro v w hvw
          by_cases hv : e.v = v
          · subst hv
            rw [aget_aset_self] at hvw
            cases hvw
            exact ⟨e, he, rfl, hpos⟩
          · rw [aget_aset_ne _ _ _ _ hv] at hvw
            exact hcore.prev_edge v w hvw
        · intro v w hvw
          by_cases hv : e.v = v
          · subst hv
            rw [aget_aset_self] at hvw
            cases hvw
            refine ⟨d, d + penWeight pen e, ?_, by rw [aget_aset_self], hnd_gt⟩
            rw [aget_aset_ne _ _ _ _ hevu]
            exact hud
          · rw [aget_aset_ne _ _ _ _ hv] at hvw
            rcases hcore.prev_lt v w hvw with ⟨dw, dv, hdw, hdv, hlt⟩
            by_cases hw2 : e.v = w
            · subst hw2
              refine ⟨d + penWeight pen e, dv, by rw [aget_aset_self], ?_, ?_⟩
              · rw [aget_aset_ne _ _ _ _ hv]
                exact hdv
              · have := hbetter dw hdw
                linarith
            · refine ⟨dw, dv, ?_, ?_, hlt⟩
              · rw [aget_aset_ne _ _ _ _ hw2]
                exact hdw
              · rw [aget_aset_ne _ _ _ _ hv]
                exact hdv
        · intro v hv
          by_cases hv2 : e.v = v
          · subst hv2
            rw [aget_aset_self] at hv
            cases hv
          · rw [aget_aset_ne _ _ _ _ hv2] at hv
            exact hcore.prev_none v hv
        · intro v hv
          by_cases hv2 : e.v = v
          · subst hv2
            exact mem_touchable_of_edge g start u e he
          · rw [aget_aset_ne _ _ _ _ hv2] at hv
            exact hcore.dist_touch v hv
      · rw [aget_aset_ne _ _ _ _ hevu]
        exact hud
      · exact ⟨[(d + penWeight pen e, e.v)], rfl, by simp,
          by simp [hnd_gt]⟩
      · intro v hv
        have hvne : e.v ≠ v := fun heq => hnotsettled (heq ▸ hv)
        constructor
        · exact aget_aset_ne _ _ _ _ hvne
        · refine ⟨?_, ?_⟩
          · rw [aget_aset_ne _ _ _ _ hvne]
            exact hv.1
          · intro p hp hpv
            rw [aget_aset_ne _ _ _ _ hvne]
            simp only [List.mem_append, List.mem_singleton] at hp
            rcases hp with hp | rfl
            · exact hv.2 p hp hpv
            · exact absurd hpv (by simpa using hvne)
      · intro v hv
        have hvne : e.v ≠ v := by
          intro heq
          subst heq
          have h1 := hv.2 (d + penWeight pen e, e.v) (by simp) rfl
          rw [aget_aset_self] at h1
          exact h1 rfl
        refine ⟨?_, ?_⟩
        · have := hv.1
          rwa [aget_aset_ne _ _ _ _ hvne] at this
        · intro p hp hpv
          have h2 := hv.2 p (by simp [hp]) hpv
          rwa [aget_aset_ne _ _ _ _ hvne] at h2
      · intro v dv hdv
        by_cases hv : e.v = v
        · subst hv
          refine ⟨d + penWeight pen e, aget_aset_self .., ?_⟩
          exact le_of_lt (hbetter dv hdv)
        · exact ⟨dv, by rw [aget_aset_ne _ _ _ _ hv]; exact hdv, le_rfl⟩
      · intro hpos2 hnd2
        exact ⟨d + penWeight pen e, aget_aset_self .., le_rfl⟩
    · -- no improvement: state unchanged
      rename_i hcond
      refine ⟨hcore, hud, ⟨[], by simp, by simp, by simp⟩,
        fun v hv => ⟨rfl, hv⟩, fun v hv => hv,
        fun v dv h => ⟨dv, h, le_rfl⟩, ?_⟩
      intro hpos2 hndm
      rw [Bool.not_eq_true, Bool.and_eq_false_iff] at hcond
      rcases hcond with hb | hm
      · rcases hev : aget st.dist e.v with - | dv0
        · rw [hev] at hb
          simp at hb
        · rw [hev] at hb
          rw [decide_eq_false_iff_not] at hb
          exact ⟨dv0, rfl, le_of_not_lt hb⟩
      · rw [decide_eq_false_iff_not] at hm
        exact absurd hndm hm

theorem relaxFold_spec (g : Graph) (pen : List ((NodeId × NodeId) × ℚ))
    (start : NodeId) (maxd : ℚ) (u : NodeId) (d : ℚ) (hpen : penGe1 pen)
    (es : List Edge) (hsub : ∀ e ∈ es, e ∈ (aget g.adjacency u).getD [])
    (st : DState) (hcore : DCore g pen start maxd st)
    (hud : aget st.dist u = some d) (hd0 : 0 ≤ d) (hdm : d ≤ maxd)
    (hsle : ∀ v dv, aget st.dist v = some dv → Settled st v → dv ≤ d) :
    DCore g pen start maxd (es.foldl (relaxEdge pen maxd u d) st) ∧
    aget (es.foldl (relaxEdge pen maxd u d) st).dist u = some d ∧
    (∃ extra, (es.foldl (relaxEdge pen maxd u d) st).heap = st.heap ++ extra ∧
      extra.length ≤ es.length ∧ ∀ p ∈ extra, d < p.1) ∧
    (∀ v, Settled st v →
      aget (es.foldl (relaxEdge pen maxd u d) st).dist v = aget st.dist v ∧
      Settled (es.foldl (relaxEdge pen maxd u d) st) v) ∧
    (∀ v, Settled (es.foldl (relaxEdge pen maxd u d) st) v → Settled st v) ∧
    (∀ v dv, aget st.dist v = some dv →
      ∃ dv', aget (es.foldl (relaxEdge pen maxd u d) st).dist v = some dv' ∧ dv' ≤ dv) ∧
    (∀ e ∈ es, 0 < e.distance_m → d + penWeight pen e ≤ maxd →
      ∃ dv, aget (es.foldl (relaxEdge pen maxd u d) st).dist e.v = some dv ∧
        dv ≤ d + penWeight pen e) ∧
    (∀ v dv, aget (es.foldl (relaxEdge pen maxd u d) st).dist v = some dv →
      Settled (es.foldl (relaxEdge pen maxd u d) st) v → dv ≤ d) := by
  induction es generalizing st with
  | nil =>
    refine ⟨hcore, hud, ⟨[], by simp, by simp, by simp⟩,
      fun v hv => ⟨rfl, hv⟩, fun v hv => hv,
      fun v dv h => ⟨dv, h, le_rfl⟩, by simp, hsle⟩
  | cons e es ih =>
    obtain ⟨core1, ud1, ⟨extra1, hext1, hlen1, hbig1⟩, sp1, sp1', mono1, relax1⟩ :=
      relaxEdge_spec g pen start maxd u d hpen e (hsub e (by simp)) st hcore hud hd0 hdm hsle
    have hsle1 : ∀ v dv, aget (relaxEdge pen maxd u d st e).dist v = some dv →
        Settled (relaxEdge pen maxd u d st e) v → dv ≤ d := by
      intro v dv hdv hs
      have hs0 := sp1' v hs
      have heq := (sp1 v hs0).1
      rw [heq] at hdv
      exact hsle v dv hdv hs0
    obtain ⟨coreF, udF, ⟨extra2, hext2, hlen2, hbig2⟩, spF, spF', monoF, relaxF, hsleF⟩ :=
      ih (fun e2 he2 => hsub e2 (List.mem_cons_of_mem e he2))
        (relaxEdge pen maxd u d st e) core1 ud1 hsle1
    rw [List.foldl_cons]
    refine ⟨coreF, udF, ?_, ?_, ?_, ?_, ?_, hsleF⟩
    · refine ⟨extra1 ++ extra2, ?_, ?_, ?_⟩
      · rw [hext2, hext1, List.append_assoc]
      · rw [List.length_append, List.length_cons]
        omega
      · intro p hp
        rcases List.mem_append.1 hp with hp | hp
        · exact hbig1 p hp
        · exact hbig2 p hp
    · intro v hv
      obtain ⟨heq1, hs1⟩ := sp1 v hv
      obtain ⟨heq2, hs2⟩ := spF v hs1
      exact ⟨heq2.trans heq1, hs2⟩
    · intro v hv
      exact sp1' v (spF' v hv)
    · intro v dv hdv
      obtain ⟨dv1, hdv1, hle1⟩ := mono1 v dv hdv
      obtain ⟨dv2, hdv2, hle2⟩ := monoF v dv1 hdv1
      exact ⟨dv2, hdv2, le_trans hle2 hle1⟩
    · intro e2 he2 hpos2 hnd2
      rcases List.mem_cons.1 he2 with rfl | he3
      · obtain ⟨dv1, hdv1, hle1⟩ := relax1 hpos2 hnd2
        obtain ⟨dv2, hdv2, hle2⟩ := monoF e2.v dv1 hdv1
        exact ⟨dv2, hdv2, le_trans hle2 hle1⟩
      · exact relaxF e2 he3 hpos2 hnd2

/-- The full loop invariant of `_dijkstra`: the bookkeeping core plus the
two settledness facts (settled distances bound the heap from below, and
all edges of settled nodes are relaxed within budget). -/
structure DInv (g : Graph) (pen : List ((NodeId × NodeId) × ℚ)) (start : NodeId)
    (maxd : ℚ) (st : DState) : Prop where
  core : DCore g pen start maxd st
  settled_min : ∀ v dv, aget st.dist v = some dv → Settled st v →
    ∀ p ∈ st.heap, dv ≤ p.1
  settled_relaxed : ∀ w dw, aget st.dist w = some dw → Settled st w →
    ∀ e ∈ (aget g.adjacency w).getD [], 0 < e.distance_m →
      dw + penWeight pen e ≤ maxd →
      ∃ dv, aget st.dist e.v = some dv ∧ dv ≤ dw + penWeight pen e

theorem perm_filter_length_le {α : Type} (l l' : List α) (x : α) (f : α → Bool)
    (hperm : l.Perm (x :: l')) : (l'.filter f).length ≤ (l.filter f).length := by
  have h1 : (l.filter f).Perm ((x :: l').filter f) := hperm.filter f
  rw [h1.length_eq]
  by_cases hx : f x = true
  · rw [List.filter_cons_of_pos hx]
    simp
  · rw [List.filter_cons_of_neg (by simpa using hx)]

theorem pop_core (g : Graph) (pen : List ((NodeId × NodeId) × ℚ)) (start : NodeId)
    (maxd : ℚ) (st : DState) (d : ℚ) (u : NodeId) (rest : List (ℚ × NodeId))
    (hcore : DCore g pen start maxd st) (hperm : st.heap.Perm ((d, u) :: rest)) :
    DCore g pen start maxd { st with heap := rest } := by
  have hmem : ∀ p ∈ rest, p ∈ st.heap := fun p hp =>
    hperm.mem_iff.2 (List.mem_cons_of_mem _ hp)
  exact ⟨hcore.dist_start, hcore.prev_start, hcore.dom_eq, hcore.dist_nodup,
    hcore.prev_nodup, hcore.dist_nonneg, hcore.dist_le, hcore.dist_reach,
    fun p hp => hcore.heap_dist p (hmem p hp),
    fun v dv hdv => le_trans
      (perm_filter_length_le _ _ _ _ hperm) (hcore.live_unique v dv hdv),
    hcore.prev_edge, hcore.prev_lt, hcore.prev_none, hcore.dist_touch⟩

theorem pop_settled_mono (st : DState) (d : ℚ) (u : NodeId) (rest : List (ℚ × NodeId))
    (hperm : st.heap.Perm ((d, u) :: rest)) (v : NodeId) (hv : Settled st v) :
    Settled { st with heap := rest } v := by
  refine ⟨hv.1, ?_⟩
  intro p hp hpv
  exact hv.2 p (hperm.mem_iff.2 (List.mem_cons_of_mem _ hp)) hpv

theorem pop_settled_back (st : DState) (d : ℚ) (u : NodeId) (rest : List (ℚ × NodeId))
    (hperm : st.heap.Perm ((d, u) :: rest)) (v : NodeId) (hvu : v ≠ u)
    (hv : Settled { st with heap := rest } v) : Settled st v := by
  refine ⟨hv.1, ?_⟩
  intro p hp hpv
  rcases List.mem_cons.1 (hperm.mem_iff.1 hp) with rfl | hp2
  · exact absurd hpv.symm hvu
  · exact hv.2 p hp2 hpv

theorem measure_heap_length (st : DState) (d : ℚ) (u : NodeId)
    (rest : List (ℚ × NodeId)) (hperm : st.heap.Perm ((d, u) :: rest)) :
    st.heap.length = rest.length + 1 := by
  rw [hperm.length_eq]
  simp

theorem unsettled_count_mono (g : Graph) (start : NodeId) (st st' : DState)
    (h : ∀ v, Settled st v → Settled st' v) :
    (((touchable g start).filter (fun v => !(settledB st' v))).length) ≤
      (((touchable g start).filter (fun v => !(settledB st v))).length) := by
  apply filter_length_mono
  intro v hv hq
  rw [Bool.not_eq_true'] at hq ⊢
  rw [← Bool.not_eq_true] at hq ⊢
  intro hc
  exact hq ((settledB_iff st' v).2 (h v ((settledB_iff st v).1 hc)))

theorem unsettled_count_lt (g : Graph) (start : NodeId) (st st' : DState) (u : NodeId)
    (hu : u ∈ touchable g start)
    (hunsettled : ¬Settled st u) (hsettled : Settled st' u)
    (h : ∀ v, Settled st v → Settled st' v) :
    (((touchable g start).filter (fun v => !(settledB st' v))).length) <
      (((touchable g start).filter (fun v => !(settledB st v))).length) := by
  apply filter_length_lt _ _ _ u (touchable_nodup g start) hu
  · rw [Bool.not_eq_true']
    rw [← Bool.not_eq_true]
    intro hc
    exact hunsettled ((settledB_iff st u).1 hc)
  · rw [Bool.not_eq_false']
    exact (settledB_iff st' u).2 hsettled
  · intro v hv hq
    rw [Bool.not_eq_true'] at hq ⊢
    rw [← Bool.not_eq_true] at hq ⊢
    intro hc
    exact hq ((settledB_iff st' v).2 (h v ((settledB_iff st v).1 hc)))

theorem rest_stale_of_live_unique (st : DState) (d : ℚ) (u : NodeId)
    (rest : List (ℚ × NodeId)) (hperm : st.heap.Perm ((d, u) :: rest))
    (hlu : (st.heap.filter (fun p => decide (p.2 = u) && decide (p.1 = d))).length ≤ 1) :
    ∀ p ∈ rest, p.2 = u → p.1 ≠ d := by
  have h1 := (hperm.filter (fun p => decide (p.2 = u) && decide (p.1 = d))).length_eq
  rw [List.filter_cons_of_pos (by simp)] at h1
  simp only [List.length_cons] at h1
  have h2 : (rest.filter (fun p => decide (p.2 = u) && decide (p.1 = d))).length = 0 := by
    omega
  rw [List.length_eq_zero, List.filter_eq_nil_iff] at h2
  intro p hp hpu hpd
  exact h2 p hp (by simp [hpu, hpd])

theorem dstep_stale (g : Graph) (pen : List ((NodeId × NodeId) × ℚ)) (start : NodeId)
    (maxd : ℚ) (st : DState) (d : ℚ) (u : NodeId) (rest : List (ℚ × NodeId))
    (hinv : DInv g pen start maxd st) (hperm : st.heap.Perm ((d, u) :: rest))
    (du : ℚ) (hdu : aget st.dist u = some du) (hlt : du < d) :
    DInv g pen start maxd { st with heap := rest } ∧
    dMeasure g start { st with heap := rest } < dMeasure g start st := by
  have hback : ∀ v, Settled { st with heap := rest } v → Settled st v := by
    intro v hv
    by_cases hvu : v = u
    · subst hvu
      refine ⟨hv.1, ?_⟩
      intro p hp hpv
      rcases List.mem_cons.1 (hperm.mem_iff.1 hp) with rfl | hp2
      · rw [hdu]
        intro hc
        rw [Option.some_inj] at hc
        exact absurd hc (ne_of_lt hlt)
      · exact hv.2 p hp2 hpv
    · exact pop_settled_back st d u rest hperm v hvu hv
  constructor
  · refine ⟨pop_core g pen start maxd st d u rest hinv.core hperm, ?_, ?_⟩
    · intro v dv hdv hs p hp
      exact hinv.settled_min v dv hdv (hback v hs) p
        (hperm.mem_iff.2 (List.mem_cons_of_mem _ hp))
    · intro w dw hdw hs e he hepos hbud
      exact hinv.settled_relaxed w dw hdw (hback w hs) e he hepos hbud
  · have h1 := measure_heap_length st d u rest hperm
    have h2 := unsettled_count_mono g start st { st with heap := rest }
      (pop_settled_mono st d u rest hperm)
    simp only [dMeasure]
    have h3 := Nat.mul_le_mul_left (degSum g start + 1) h2
    omega

theorem dstep_drop (g : Graph) (pen : List ((NodeId × NodeId) × ℚ)) (start : NodeId)
    (maxd : ℚ) (st : DState) (d : ℚ) (u : NodeId) (rest : List (ℚ × NodeId))
    (hpen : penGe1 pen) (hinv : DInv g pen start maxd st)
    (hperm : st.heap.Perm ((d, u) :: rest))
    (hmin : ∀ p ∈ st.heap, d ≤ p.1)
    (hud : aget st.dist u = some d) (hbud : maxd < d) :
    DInv g pen start maxd { st with heap := rest } ∧
    dMeasure g start { st with heap := rest } < dMeasure g start st := by
  have hrest_stale : ∀ p ∈ rest, p.2 = u → p.1 ≠ d :=
    rest_stale_of_live_unique st d u rest hperm (hinv.core.live_unique u d hud)
  have hsettled_u : Settled { st with heap := rest } u := by
    refine ⟨by rw [hud]; rfl, ?_⟩
    intro p hp hpv
    rw [hud]
    intro hc
    rw [Option.some_inj] at hc
    exact hrest_stale p hp hpv hc.symm
  constructor
  · refine ⟨pop_core g pen start maxd st d u rest hinv.core hperm, ?_, ?_⟩
    · intro v dv hdv hs p hp
      by_cases hvu : v = u
      · subst hvu
        rw [hud] at hdv
        rw [Option.some_inj] at hdv
        rw [← hdv]
        exact hmin p (hperm.mem_iff.2 (List.mem_cons_of_mem _ hp))
      · exact hinv.settled_min v dv hdv (pop_settled_back st d u rest hperm v hvu hs) p
          (hperm.mem_iff.2 (List.mem_cons_of_mem _ hp))
    · intro w dw hdw hs e he hepos hbudget
      by_cases hwu : w = u
      · subst hwu
        rw [hud] at hdw
        rw [Option.some_inj] at hdw
        have hpw := penWeight_pos pen hpen e hepos
        exfalso
        rw [hdw] at hbud
        linarith
      · exact hinv.settled_relaxed w dw hdw
          (pop_settled_back st d u rest hperm w hwu hs) e he hepos hbudget
  · have h1 := measure_heap_length st d u rest hperm
    have h2 := unsettled_count_mono g start st { st with heap := rest }
      (pop_settled_mono st d u rest hperm)
    simp only [dMeasure]
    have h3 := Nat.mul_le_mul_left (degSum g start + 1) h2
    omega

theorem dstep_process (g : Graph) (pen : List ((NodeId × NodeId) × ℚ)) (start : NodeId)
    (maxd : ℚ) (st : DState) (d : ℚ) (u : NodeId) (rest : List (ℚ × NodeId))
    (hpen : penGe1 pen) (hinv : DInv g pen start maxd st)
    (hperm : st.heap.Perm ((d, u) :: rest))
    (hmin : ∀ p ∈ st.heap, d ≤ p.1)
    (hud : aget st.dist u = some d) (hdm : d ≤ maxd) :
    DInv g pen start maxd (relaxEdges g pen maxd u d { st with heap := rest }) ∧
    dMeasure g start (relaxEdges g pen maxd u d { st with heap := rest }) <
      dMeasure g start st := by
  have hd0 : 0 ≤ d := hinv.core.dist_nonneg u d hud
  have hrest_stale : ∀ p ∈ rest, p.2 = u → p.1 ≠ d :=
    rest_stale_of_live_unique st d u rest hperm (hinv.core.live_unique u d hud)
  have hcore1 : DCore g pen start maxd { st with heap := rest } :=
    pop_core g pen start maxd st d u rest hinv.core hperm
  have hsettled1_u : Settled { st with heap := rest } u := by
    refine ⟨by rw [hud]; rfl, ?_⟩
    intro p hp hpv
    rw [hud]
    intro hc
    rw [Option.some_inj] at hc
    exact hrest_stale p hp hpv hc.symm
  have hunsettled_st_u : ¬Settled st u := by
    rintro ⟨-, h2⟩
    exact h2 (d, u) (hperm.mem_iff.2 (by simp)) rfl (by rw [hud])
  have hsle1 : ∀ v dv, aget { st with heap := rest }.dist v = some dv →
      Settled { st with heap := rest } v → dv ≤ d := by
    intro v dv hdv hs
    by_cases hvu : v = u
    · subst hvu
      simp only at hdv
      rw [hud] at hdv
      rw [Option.some_inj] at hdv
      rw [hdv]
    · exact hinv.settled_min v dv hdv (pop_settled_back st d u rest hperm v hvu hs)
        (d, u) (hperm.mem_iff.2 (by simp))
  obtain ⟨coreF, udF, ⟨extra, hext, hlen, hbig⟩, spF, spF', monoF, relaxF, hsleF⟩ :=
    relaxFold_spec g pen start maxd u d hpen ((aget g.adjacency u).getD [])
      (fun e2 he2 => he2) { st with heap := rest } hcore1 hud hd0 hdm hsle1
  rw [show relaxEdges g pen maxd u d { st with heap := rest } =
      ((aget g.adjacency u).getD []).foldl (relaxEdge pen maxd u d)
        { st with heap := rest } from rfl]
  constructor
  · refine ⟨coreF, ?_, ?_⟩
    · -- settled_min for the relaxed state
      intro v dv hdv hs p hp
      have hs1 := spF' v hs
      have heq := (spF v hs1).1
      rw [heq] at hdv
      rw [hext] at hp
      rcases List.mem_append.1 hp with hp | hp
      · by_cases hvu : v = u
        · subst hvu
          simp only at hdv
          rw [hud] at hdv
          rw [Option.some_inj] at hdv
          rw [← hdv]
          exact hmin p (hperm.mem_iff.2 (List.mem_cons_of_mem _ hp))
        · exact hinv.settled_min v dv hdv
            (pop_settled_back st d u rest hperm v hvu hs1) p
            (hperm.mem_iff.2 (List.mem_cons_of_mem _ hp))
      · exact le_trans (hsle1 v dv hdv hs1) (le_of_lt (hbig p hp))
    · -- settled_relaxed for the relaxed state
      intro w dw hdw hs e he hepos hbudget
      have hs1 := spF' w hs
      have heq := (spF w hs1).1
      rw [heq] at hdw
      by_cases hwu : w = u
      · subst hwu
        simp only at hdw
        rw [hud] at hdw
        rw [Option.some_inj] at hdw
        rw [← hdw]
        rw [← hdw] at hbudget
        exact relaxF e he hepos hbudget
      · have hs0 := pop_settled_back st d u rest hperm w hwu hs1
        obtain ⟨dv, hdv, hle⟩ := hinv.settled_relaxed w dw hdw hs0 e he hepos hbudget
        obtain ⟨dv2, hdv2, hle2⟩ := monoF e.v dv hdv
        exact ⟨dv2, hdv2, le_trans hle2 hle⟩
  · -- the measure strictly decreases
    have hu_touch : u ∈ touchable g start :=
      hinv.core.dist_touch u (by rw [hud]; rfl)
    have hsettledF_u : Settled
        (((aget g.adjacency u).getD []).foldl (relaxEdge pen maxd u d)
          { st with heap := rest }) u := (spF u hsettled1_u).2
    have hmono : ∀ v, Settled st v →
        Settled (((aget g.adjacency u).getD []).foldl (relaxEdge pen maxd u d)
          { st with heap := rest }) v :=
      fun v hv => (spF v (pop_settled_mono st d u rest hperm v hv)).2
    have hcount := unsettled_count_lt g start st _ u hu_touch hunsettled_st_u
      hsettledF_u hmono
    have hheap := measure_heap_length st d u rest hperm
    have hdeg : ((aget g.adjacency u).getD []).length ≤ degSum g start := by
      have := outdeg_le_degSum g start u hu_touch
      simpa [outdeg] using this
    simp only [dMeasure]
    rw [hext]
    have hproj : ({ st with heap := rest } : DState).heap = rest := rfl
    rw [hproj, List.length_append]
    have hsucc := Nat.succ_le_of_lt hcount
    have hmul := Nat.mul_le_mul_left (degSum g start + 1) hsucc
    rw [Nat.mul_succ] at hmul
    omega

theorem dijkstraLoop_spec (g : Graph) (pen : List ((NodeId × NodeId) × ℚ))
    (start : NodeId) (maxd : ℚ) (hpen : penGe1 pen) :
    ∀ (fuel : Nat) (st : DState), DInv g pen start maxd st →
      dMeasure g start st < fuel →
      DInv g pen start maxd (dijkstraLoop g pen maxd fuel st) ∧
      (dijkstraLoop g pen maxd fuel st).heap = [] := by
  intro fuel
  induction fuel with
  | zero =>
    intro st hinv hm
    exact absurd hm (by omega)
  | succ n ih =>
    intro st hinv hm
    simp only [dijkstraLoop]
    rcases hpop : popMin st.heap with - | ⟨⟨d, u⟩, rest⟩
    · exact ⟨hinv, (popMin_eq_none _).1 hpop⟩
    · have hperm := popMin_perm st.heap (d, u) rest hpop
      have hmin : ∀ p ∈ st.heap, d ≤ p.1 := popMin_min st.heap (d, u) rest hpop
      simp only [hpop]
      split
      · -- stale entry
        rename_i hstale
        rcases hd2 : aget st.dist u with - | du
        · rw [hd2] at hstale
          simp at hstale
        · rw [hd2] at hstale
          rw [decide_eq_true_iff] at hstale
          obtain ⟨hinv1, hlt⟩ :=
            dstep_stale g pen start maxd st d u rest hinv hperm du hd2 hstale
          exact ih _ hinv1 (by omega)
      · rename_i hnstale
        have hud : aget st.dist u = some d := by
          obtain ⟨du, hdu, hdule⟩ := hinv.core.heap_dist (d, u)
            (hperm.mem_iff.2 (by simp))
          have hnlt : ¬(du < d) := by
            intro hlt
            apply hnstale
            simp only [hdu]
            exact decide_eq_true hlt
          rw [hdu, Option.some_inj]
          exact le_antisymm hdule (le_of_not_lt hnlt)
        split
        · -- beyond the budget: drop
          rename_i hbud
          rw [decide_eq_true_iff] at hbud
          obtain ⟨hinv1, hlt⟩ :=
            dstep_drop g pen start maxd st d u rest hpen hinv hperm hmin hud hbud
          exact ih _ hinv1 (by omega)
        · -- relax the popped node
          rename_i hbud
          rw [decide_eq_true_iff] at hbud
          obtain ⟨hinv1, hlt⟩ :=
            dstep_process g pen start maxd st d u rest hpen hinv hperm hmin hud
              (le_of_not_lt hbud)
          exact ih _ hinv1 (by omega)

theorem dinit_inv (g : Graph) (pen : List ((NodeId × NodeId) × ℚ)) (start : NodeId)
    (maxd : ℚ) :
    DInv g pen start maxd
      ⟨[(start, 0)], [(start, none)], [(0, start)]⟩ := by
  have hget : ∀ v, aget [(start, (0 : ℚ))] v = if start = v then some 0 else none := by
    intro v
    by_cases h : start = v <;> simp [aget, h]
  have hgetp : ∀ v, aget [(start, (none : Option NodeId))] v =
      if start = v then some none else none := by
    intro v
    by_cases h : start = v <;> simp [aget, h]
  refine ⟨⟨?_, ?_, ?_, ?_, ?_, ?_, ?_, ?_, ?_, ?_, ?_, ?_, ?_, ?_⟩, ?_, ?_⟩
  · simp [aget]
  · simp [aget]
  · intro v
    rw [hget v, hgetp v]
    by_cases h : start = v <;> simp [h]
  · simp
  · simp
  · intro v dv hdv
    rw [hget v] at hdv
    by_cases h : start = v
    · rw [if_pos h, Option.some_inj] at hdv
      exact le_of_eq hdv
    · rw [if_neg h] at hdv
      cases hdv
  · intro v dv hdv
    rw [hget v] at hdv
    by_cases h : start = v
    · rw [if_pos h, Option.some_inj] at hdv
      exact Or.inr ⟨h.symm, hdv.symm⟩
    · rw [if_neg h] at hdv
      cases hdv
  · intro v dv hdv
    rw [hget v] at hdv
    by_cases h : start = v
    · rw [if_pos h, Option.some_inj] at hdv
      rw [← h, ← hdv]
      exact Reaches.refl
    · rw [if_neg h] at hdv
      cases hdv
  · intro p hp
    simp only [List.mem_singleton] at hp
    subst hp
    exact ⟨0, by simp [aget], le_rfl⟩
  · intro v dv hdv
    exact le_trans (List.length_filter_le _ _) (by simp)
  · intro v w hvw
    rw [hgetp v] at hvw
    by_cases h : start = v
    · rw [if_pos h, Option.some_inj] at hvw
      cases hvw
    · rw [if_neg h] at hvw
      cases hvw
  · intro v w hvw
    rw [hgetp v] at hvw
    by_cases h : start = v
    · rw [if_pos h, Option.some_inj] at hvw
      cases hvw
    · rw [if_neg h] at hvw
      cases hvw
  · intro v hv
    rw [hgetp v] at hv
    by_cases h : start = v
    · exact h.symm
    · rw [if_neg h] at hv
      cases hv
  · intro v hv
    rw [hget v] at hv
    by_cases h : start = v
    · rw [← h]
      exact start_mem_touchable g start
    · rw [if_neg h] at hv
      cases hv
  · -- settled_min: the only key has a live entry, so nothing is settled
    intro v dv hdv hs
    exfalso
    rw [hget v] at hdv
    by_cases h : start = v
    · have h2 := hs.2 (0, start) (by simp) (by rw [← h])
      exact h2 (by rw [hget v, if_pos h])
    · rw [if_neg h] at hdv
      cases hdv
  · intro w dw hdw hs
    exfalso
    rw [hget w] at hdw
    by_cases h : start = w
    · have h2 := hs.2 (0, start) (by simp) (by rw [← h])
      exact h2 (by rw [hget w, if_pos h])
    · rw [if_neg h] at hdw
      cases hdw

theorem dinit_measure (g : Graph) (start : NodeId) :
    dMeasure g start ⟨[(start, 0)], [(start, none)], [(0, start)]⟩ <
      dijkstraFuel g start := by
  simp only [dMeasure, dijkstraFuel, List.length_singleton]
  have h1 : ((touchable g start).filter (fun v =>
      !(settledB ⟨[(start, 0)], [(start, none)], [(0, start)]⟩ v))).length ≤
      (touchable g start).length := List.length_filter_le _ _
  have h2 := Nat.mul_le_mul_left (degSum g start + 1) h1
  omega

theorem dijkstra_runs (g : Graph) (start : NodeId) (maxd : ℚ)
    (pen : List ((NodeId × NodeId) × ℚ)) (hpen : penGe1 pen) :
    DInv g pen start maxd
      (dijkstraLoop g pen maxd (dijkstraFuel g start)
        ⟨[(start, 0)], [(start, none)], [(0, start)]⟩) ∧
    (dijkstraLoop g pen maxd (dijkstraFuel g start)
      ⟨[(start, 0)], [(start, none)], [(0, start)]⟩).heap = [] :=
  dijkstraLoop_spec g pen start maxd hpen (dijkstraFuel g start) _
    (dinit_inv g pen start maxd) (dinit_measure g start)

theorem dijkstra_dist_eq (g : Graph) (start : NodeId) (maxd : ℚ)
    (pen : List ((NodeId × NodeId) × ℚ)) :
    (_dijkstra g start maxd pen).1 =
      (dijkstraLoop g pen maxd (dijkstraFuel g start)
        ⟨[(start, 0)], [(start, none)], [(0, start)]⟩).dist := rfl

theorem dijkstra_prev_eq (g : Graph) (start : NodeId) (maxd : ℚ)
    (pen : List ((NodeId × NodeId) × ℚ)) :
    (_dijkstra g start maxd pen).2 =
      (dijkstraLoop g pen maxd (dijkstraFuel g start)
        ⟨[(start, 0)], [(start, none)], [(0, start)]⟩).prev := rfl

theorem dijkstra_complete (g : Graph) (start : NodeId) (maxd : ℚ)
    (pen : List ((NodeId × NodeId) × ℚ)) (hpen : penGe1 pen) :
    ∀ n c, Reaches g pen start n c → c ≤ maxd →
      ∃ dn, aget (_dijkstra g start maxd pen).1 n = some dn ∧ dn ≤ c := by
  obtain ⟨hinv, hempty⟩ := dijkstra_runs g start maxd pen hpen
  intro n c hr
  induction hr with
  | refl =>
    intro h0
    refine ⟨0, ?_, le_rfl⟩
    rw [dijkstra_dist_eq]
    exact hinv.core.dist_start
  | @step u v c e hr he hv hdpos ih =>
    intro hle
    have hw := penWeight_pos pen hpen e hdpos
    obtain ⟨du, hdu, hdule⟩ := ih (by linarith)
    rw [dijkstra_dist_eq] at hdu
    have hsett : Settled (dijkstraLoop g pen maxd (dijkstraFuel g start)
        ⟨[(start, 0)], [(start, none)], [(0, start)]⟩) u := by
      refine ⟨by rw [hdu]; rfl, ?_⟩
      intro p hp
      rw [hempty] at hp
      cases hp
    obtain ⟨dv, hdv, hdvle⟩ :=
      hinv.settled_relaxed u du hdu hsett e he hdpos (by linarith)
    refine ⟨dv, ?_, by linarith⟩
    rw [dijkstra_dist_eq, ← hv]
    exact hdv

/-- Claim C1 (amended with the hypothesis `0 <= D`, forced by the
counterexample `C1_cutoff_cex`): for every graph, source and penalty
mapping with multipliers at least 1, and every bound `D >= 0`, the `dist`
map of `_dijkstra` contains no node with recorded distance above `D`,
every recorded distance is the weight of an actual walk from the source,
and every node with some walk of weight at most `D` is recorded with a
distance no larger than that weight — together: every node whose true
shortest-path distance is at most `D` is present with exactly that
distance. -/
theorem C1_bounded_shortest_paths (g : Graph) (s : NodeId) (D : ℚ)
    (pen : List ((NodeId × NodeId) × ℚ)) (hD : 0 ≤ D) (hpen : penGe1 pen) :
    (∀ n dn, aget (_dijkstra g s D pen).1 n = some dn → dn ≤ D) ∧
    (∀ n dn, aget (_dijkstra g s D pen).1 n = some dn → Reaches g pen s n dn) ∧
    (∀ n c, Reaches g pen s n c → c ≤ D →
      ∃ dn, aget (_dijkstra g s D pen).1 n = some dn ∧ dn ≤ c) := by
  obtain ⟨hinv, -⟩ := dijkstra_runs g s D pen hpen
  refine ⟨?_, ?_, dijkstra_complete g s D pen hpen⟩
  · intro n dn hdn
    rw [dijkstra_dist_eq] at hdn
    rcases hinv.core.dist_le n dn hdn with h | ⟨-, rfl⟩
    · exact h
    · exact hD
  · intro n dn hdn
    rw [dijkstra_dist_eq] at hdn
    exact hinv.core.dist_reach n dn hdn

unseal Rat.mul Rat.add Rat.sub Rat.inv Rat.ofScientific in
/-- Counterexample to C1 as stated: with a negative bound the source node
is still recorded at distance 0, which exceeds the bound. -/
theorem C1_cutoff_cex :
    aget (_dijkstra ⟨[], []⟩ ("a") (-1) []).1 ("a") = some 0 ∧ (-1 : ℚ) < 0 :=
  ⟨by decide, by norm_num⟩

unseal Rat.mul Rat.add Rat.sub Rat.inv Rat.ofScientific in
/-- Witness for C1 on the triangle graph with bound 350: node b is recorded
at distance 100, which the theorem bounds by 350. -/
theorem C1_bounded_shortest_paths_witness :
    aget (_dijkstra gTriangle ("a") 350 []).1 ("b") = some 100 ∧ (100 : ℚ) ≤ 350 :=
  ⟨by decide,
    (C1_bounded_shortest_paths gTriangle ("a") 350 [] (by norm_num)
      (fun k r h => by simp [aget] at h)).1 ("b") 100 (by decide)⟩

theorem assoc_length_eq {α β : Type} (m1 : List (NodeId × α)) (m2 : List (NodeId × β))
    (h1 : (m1.map Prod.fst).Nodup) (h2 : (m2.map Prod.fst).Nodup)
    (hdom : ∀ k, (aget m1 k).isSome ↔ (aget m2 k).isSome) : m1.length = m2.length := by
  have hperm : (m1.map Prod.fst).Perm (m2.map Prod.fst) := by
    rw [List.perm_ext_iff_of_nodup h1 h2]
    intro k
    rw [← aget_isSome_iff_mem_keys, ← aget_isSome_iff_mem_keys]
    exact hdom k
  have h3 := hperm.length_eq
  simpa using h3

theorem reconGo_spec (dist : List (NodeId × ℚ)) (prev : List (NodeId × Option NodeId))
    (s : NodeId) (R : NodeId → NodeId → Prop)
    (hnd : (dist.map Prod.fst).Nodup)
    (hdom : ∀ v, (aget dist v).isSome ↔ (aget prev v).isSome)
    (hpnone : ∀ v, aget prev v = some none → v = s)
    (hplt : ∀ v w, aget prev v = some (some w) →
      ∃ dw dv, aget dist w = some dw ∧ aget dist v = some dv ∧ dw < dv)
    (hR : ∀ v w, aget prev v = some (some w) → R w v) :
    ∀ (fuel : Nat) (t : NodeId) (dt : ℚ) (acc : List NodeId),
      aget dist t = some dt →
      (dist.filter (fun q => decide (q.2 < dt))).length < fuel →
      ∃ p, reconGo prev fuel t acc = p ++ acc ∧
        p.head? = some s ∧ p.getLast? = some t ∧ p.Nodup ∧
        List.Chain' R p ∧
        (∀ x ∈ p, ∃ dx, aget dist x = some dx ∧ dx ≤ dt) := by
  intro fuel
  induction fuel with
  | zero =>
    intro t dt acc hdt hm
    exact absurd hm (by omega)
  | succ m ih =>
    intro t dt acc hdt hm
    have hpt : (aget prev t).isSome := (hdom t).1 (by rw [hdt]; rfl)
    rcases hval : aget prev t with - | val
    · rw [hval] at hpt
      cases hpt
    · cases val with
      | none =>
        have hts : t = s := hpnone t hval
        refine ⟨[t], ?_, by rw [hts]; rfl, rfl, by simp, by simp, ?_⟩
        · simp only [reconGo, hval, Option.getD_some]
          rfl
        · intro x hx
          simp only [List.mem_singleton] at hx
          subst hx
          exact ⟨dt, hdt, le_rfl⟩
      | some w =>
        obtain ⟨dw, dv, hdw, hdv, hlt⟩ := hplt t w hval
        have hdveq : dv = dt := by
          rw [hdt] at hdv
          exact (Option.some_inj.1 hdv).symm
        subst hdveq
        have hmono : (dist.filter (fun q => decide (q.2 < dw))).length <
            (dist.filter (fun q => decide (q.2 < dv))).length := by
          apply filter_length_lt _ _ _ (w, dw) (hnd.of_map Prod.fst) (aget_mem hdw)
          · exact decide_eq_true hlt
          · simp
          · intro q hq hql
            rw [decide_eq_true_iff] at hql
            exact decide_eq_true (lt_trans hql hlt)
        obtain ⟨pu, hpu_eq, hpu_head, hpu_last, hpu_nodup, hpu_chain, hpu_elem⟩ :=
          ih w dw (t :: acc) hdw (by omega)
        have hpu_ne : pu ≠ [] := by
          intro hc
          rw [hc] at hpu_head
          cases hpu_head
        refine ⟨pu ++ [t], ?_, ?_, List.getLast?_concat _, ?_, ?_, ?_⟩
        · simp only [reconGo, hval, Option.getD_some]
          rw [hpu_eq]
          simp
        · rcases pu with - | ⟨x, pu2⟩
          · exact absurd rfl hpu_ne
          · simpa using hpu_head
        · rw [List.nodup_append]
          refine ⟨hpu_nodup, by simp, ?_⟩
          intro x hx
          simp only [List.mem_singleton]
          intro hxt
          subst hxt
          obtain ⟨dx, hdx, hdxle⟩ := hpu_elem x hx
          rw [hdt] at hdx
          rw [Option.some_inj] at hdx
          subst hdx
          linarith
        · rw [List.chain'_append]
          refine ⟨hpu_chain, by simp, ?_⟩
          intro x hx y hy
          simp only [hpu_last, Option.mem_def, Option.some_inj] at hx
          simp only [List.head?_cons, Option.mem_def, Option.some_inj] at hy
          subst hx
          subst hy
          exact hR t w hval
        · intro x hx
          rcases List.mem_append.1 hx with hx | hx
          · obtain ⟨dx, hdx, hdxle⟩ := hpu_elem x hx
            exact ⟨dx, hdx, le_trans hdxle (le_of_lt hlt)⟩
          · simp only [List.mem_singleton] at hx
            subst hx
            exact ⟨dv, hdt, le_rfl⟩

theorem dijkstra_dom_iff (g : Graph) (s : NodeId) (maxd : ℚ)
    (pen : List ((NodeId × NodeId) × ℚ)) (hpen : penGe1 pen) (t : NodeId) :
    ((aget (_dijkstra g s maxd pen).1 t).isSome ↔
      (aget (_dijkstra g s maxd pen).2 t).isSome) := by
  obtain ⟨hinv, -⟩ := dijkstra_runs g s maxd pen hpen
  rw [dijkstra_dist_eq, dijkstra_prev_eq]
  exact hinv.core.dom_eq t

/-- Path reconstruction over the prev map of a finished `_dijkstra` run:
for every recorded target the fueled walk terminates and returns a
duplicate-free path from the source to the target whose consecutive pairs
follow adjacency edges; unrecorded targets yield the no-path result. -/
theorem dijkstra_reconstruct (g : Graph) (s : NodeId) (maxd : ℚ)
    (pen : List ((NodeId × NodeId) × ℚ)) (hpen : penGe1 pen) (t : NodeId) :
    ((aget (_dijkstra g s maxd pen).2 t).isSome →
      ∃ p, _reconstruct_path (_dijkstra g s maxd pen).2 t = some p ∧
        p.head? = some s ∧ p.getLast? = some t ∧ p.Nodup ∧
        List.Chain' (fun a b => ∃ e ∈ (aget g.adjacency a).getD [], e.v = b) p) ∧
    (aget (_dijkstra g s maxd pen).2 t = none →
      _reconstruct_path (_dijkstra g s maxd pen).2 t = none) := by
  obtain ⟨hinv, -⟩ := dijkstra_runs g s maxd pen hpen
  constructor
  · intro ht
    rw [dijkstra_prev_eq] at ht
    obtain ⟨dt, hdt⟩ := Option.isSome_iff_exists.1 ((hinv.core.dom_eq t).2 ht)
    have hlen : (dijkstraLoop g pen maxd (dijkstraFuel g s)
          ⟨[(s, 0)], [(s, none)], [(0, s)]⟩).dist.length =
        (dijkstraLoop g pen maxd (dijkstraFuel g s)
          ⟨[(s, 0)], [(s, none)], [(0, s)]⟩).prev.length :=
      assoc_length_eq _ _ hinv.core.dist_nodup hinv.core.prev_nodup hinv.core.dom_eq
    have hflt : ((dijkstraLoop g pen maxd (dijkstraFuel g s)
        ⟨[(s, 0)], [(s, none)], [(0, s)]⟩).dist.filter
          (fun q => decide (q.2 < dt))).length <
        (dijkstraLoop g pen maxd (dijkstraFuel g s)
          ⟨[(s, 0)], [(s, none)], [(0, s)]⟩).prev.length + 1 := by
      have := List.length_filter_le (fun q => decide (q.2 < dt))
        (dijkstraLoop g pen maxd (dijkstraFuel g s)
          ⟨[(s, 0)], [(s, none)], [(0, s)]⟩).dist
      omega
    obtain ⟨p, hpeq, hhead, hlast, hnodup, hchain, -⟩ :=
      reconGo_spec _ _ s (fun a b => ∃ e ∈ (aget g.adjacency a).getD [], e.v = b)
        hinv.core.dist_nodup hinv.core.dom_eq hinv.core.prev_none hinv.core.prev_lt
        (fun v w hvw => hinv.core.prev_edge v w hvw |>.imp
          (fun e he => ⟨he.1, he.2.1⟩))
        ((dijkstraLoop g pen maxd (dijkstraFuel g s)
          ⟨[(s, 0)], [(s, none)], [(0, s)]⟩).prev.length + 1) t dt [] hdt hflt
    refine ⟨p, ?_, hhead, hlast, hnodup, hchain⟩
    rw [dijkstra_prev_eq]
    simp only [_reconstruct_path]
    rw [if_neg (by rw [Option.isNone_iff_eq_none]; intro hc; rw [hc] at ht; cases ht)]
    rw [hpeq]
    simp
  · intro ht
    simp only [_reconstruct_path]
    rw [if_pos (by rw [ht]; rfl)]

/-- Claim C10: the prev map returned by `_dijkstra` (for the penalty
regime of the engine, multipliers at least 1 — for smaller multipliers the
source loop need not terminate and returns nothing) is well-founded: the
source maps to the sentinel, every other recorded node's predecessor is
itself recorded, `_reconstruct_path` terminates on every key with a
duplicate-free path from the source to that key, and unrecorded targets
give the no-path result. -/
theorem C10_prev_map_wellfounded (g : Graph) (s : NodeId) (maxd : ℚ)
    (pen : List ((NodeId × NodeId) × ℚ)) (hpen : penGe1 pen) :
    aget (_dijkstra g s maxd pen).2 s = some none ∧
    (∀ v w, aget (_dijkstra g s maxd pen).2 v = some (some w) →
      (aget (_dijkstra g s maxd pen).2 w).isSome) ∧
    (∀ t, (aget (_dijkstra g s maxd pen).2 t).isSome →
      ∃ p, _reconstruct_path (_dijkstra g s maxd pen).2 t = some p ∧
        p.head? = some s ∧ p.getLast? = some t ∧ p.Nodup) ∧
    (∀ t, aget (_dijkstra g s maxd pen).2 t = none →
      _reconstruct_path (_dijkstra g s maxd pen).2 t = none) := by
  obtain ⟨hinv, -⟩ := dijkstra_runs g s maxd pen hpen
  refine ⟨?_, ?_, ?_, ?_⟩
  · rw [dijkstra_prev_eq]
    exact hinv.core.prev_start
  · intro v w hvw
    rw [dijkstra_prev_eq] at hvw ⊢
    obtain ⟨dw, dv, hdw, -, -⟩ := hinv.core.prev_lt v w hvw
    exact (hinv.core.dom_eq w).1 (by rw [hdw]; rfl)
  · intro t ht
    obtain ⟨p, h1, h2, h3, h4, -⟩ := (dijkstra_reconstruct g s maxd pen hpen t).1 ht
    exact ⟨p, h1, h2, h3, h4⟩
  · exact fun t ht => (dijkstra_reconstruct g s maxd pen hpen t).2 ht

/-- Witness for C10: the triangle run from node a. -/
theorem C10_prev_map_wellfounded_witness :
    aget (_dijkstra gTriangle ("a") 350 []).2 ("a") = some none :=
  (C10_prev_map_wellfounded gTriangle ("a") 350 []
    (fun k r h => by simp [aget] at h)).1

/-- The undirected-symmetry invariant of §3 of the spec: every directed
edge has a reverse edge with the same distance. -/
def GraphSymmetric (g : Graph) : Prop :=
  ∀ p ∈ g.adjacency, ∀ e ∈ p.2,
    ∃ e2 ∈ (aget g.adjacency e.v).getD [], e2.v = e.u ∧ e2.distance_m = e.distance_m

/-- A closed walk from `start`: first and last ids are `start` and every
consecutive pair follows an adjacency edge. -/
def loopClosed (g : Graph) (start : NodeId) (r : RouteResult) : Prop :=
  r.nodes.head? = some start ∧ r.nodes.getLast? = some start ∧
  List.Chain' (fun a b => ∃ e ∈ (aget g.adjacency a).getD [], e.v = b) r.nodes

theorem aget_map_const {α β : Type} (l : List ((NodeId × NodeId) × α)) (c : β)
    (k : NodeId × NodeId) :
    ∀ r, aget (l.map (fun p => (p.1, c))) k = some r → r = c := by
  induction l with
  | nil => intro r h; simp [aget] at h
  | cons p rest ih =>
    intro r h
    simp only [List.map_cons, aget] at h
    split at h
    · exact (Option.some_inj.1 h).symm
    · exact ih r h

theorem penGe1_map4 (l : List ((NodeId × NodeId) × Nat)) :
    penGe1 (l.map (fun p => (p.1, (4.0 : ℚ)))) := by
  intro k r h
  rw [aget_map_const l (4.0 : ℚ) k r h]
  norm_num

theorem head?_append_left {α : Type} (l1 l2 : List α) (h : l1 ≠ []) :
    (l1 ++ l2).head? = l1.head? := by
  cases l1 with
  | nil => exact absurd rfl h
  | cons a t => rfl

theorem getLast?_append_right {α : Type} (l1 l2 : List α) (h : l2 ≠ []) :
    (l1 ++ l2).getLast? = l2.getLast? := by
  induction l1 with
  | nil => rfl
  | cons a t ih =>
    rw [List.cons_append, getLast?_cons_of_ne_nil _ _ (by simp [h]), ih]

theorem length_ge_two_ne_nil {α : Type} (l : List α) (h : ¬l.length < 2) : l ≠ [] := by
  intro hc
  rw [hc] at h
  simp at h

theorem tryCandidate_closed (g : Graph) (start : NodeId)
    (d_min_m d_max_m elev_limit_m target_m : ℚ)
    (prev_fw : List (NodeId × Option NodeId))
    (hfw : ∀ t, (aget prev_fw t).isSome →
      ∃ p, _reconstruct_path prev_fw t = some p ∧ p.head? = some start ∧
        p.getLast? = some t ∧
        List.Chain' (fun a b => ∃ e ∈ (aget g.adjacency a).getD [], e.v = b) p)
    (hfw0 : ∀ t, aget prev_fw t = none → _reconstruct_path prev_fw t = none)
    (best : Option RouteResult) (c : ℚ × NodeId)
    (hbest : ∀ r, best = some r → loopClosed g start r) :
    ∀ r, tryCandidate g start d_min_m d_max_m elev_limit_m target_m prev_fw best c
        = some r → loopClosed g start r := by
  intro r hr
  simp only [tryCandidate] at hr
  split at hr
  · exact hbest r hr
  · rename_i path_fw hm_fw
    split at hr
    · exact hbest r hr
    · rename_i hlen_fw
      split at hr
      · exact hbest r hr
      · rename_i hrem
        split at hr
        · exact hbest r hr
        · rename_i hback_dist
          split at hr
          · exact hbest r hr
          · rename_i path_back hm_back
            split at hr
            · exact hbest r hr
            · rename_i hlen_back
              -- collect the path facts before the filter cascade
              have hvsome : (aget prev_fw c.2).isSome := by
                rcases hx : aget prev_fw c.2 with - | val
                · rw [hfw0 c.2 hx] at hm_fw
                  cases hm_fw
                · rfl
              obtain ⟨pfw, hpfw_eq, hpfw_head, hpfw_last, hpfw_chain⟩ := hfw c.2 hvsome
              rw [hm_fw] at hpfw_eq
              rw [Option.some_inj] at hpfw_eq
              subst hpfw_eq
              have hpen4 := penGe1_map4 (usedEdges path_fw)
              have hbsome : (aget (_dijkstra g c.2 (d_max_m - c.1)
                  ((usedEdges path_fw).map (fun p => (p.1, (4.0 : ℚ))))).2 start).isSome := by
                rw [← dijkstra_dom_iff g c.2 (d_max_m - c.1) _ hpen4 start]
                rw [Option.isNone_iff_eq_none] at hback_dist
                rw [Option.isSome_iff_ne_none]
                exact hback_dist
              obtain ⟨pbk, hpbk_eq, hpbk_head, hpbk_last, -, hpbk_chain⟩ :=
                (dijkstra_reconstruct g c.2 (d_max_m - c.1)
                  ((usedEdges path_fw).map (fun p => (p.1, (4.0 : ℚ)))) hpen4 start).1 hbsome
              rw [hm_back] at hpbk_eq
              rw [Option.some_inj] at hpbk_eq
              subst hpbk_eq
              have hclosed : loopClosed g start
                  ⟨path_fw ++ path_back.tail,
                    (_path_distance_and_elevation g (path_fw ++ path_back.tail)).1,
                    (_path_distance_and_elevation g (path_fw ++ path_back.tail)).2.1,
                    (_path_distance_and_elevation g (path_fw ++ path_back.tail)).2.2 +
                      5 * |(_path_distance_and_elevation g (path_fw ++ path_back.tail)).1
                        - target_m| ^ 2 +
                      300 * ((reuseCount (path_fw ++ path_back.tail) : ℚ))⟩ := by
                obtain ⟨v0, tb, rfl⟩ : ∃ v0 tb, path_back = v0 :: tb := by
                  cases path_back with
                  | nil => exact absurd rfl (length_ge_two_ne_nil _ hlen_back)
                  | cons v0 tb => exact ⟨v0, tb, rfl⟩
                have htb_ne : tb ≠ [] := by
                  intro hc
                  subst hc
                  simp at hlen_back
                have hv0 : v0 = c.2 := by
                  simp only [List.head?_cons, Option.some_inj] at hpbk_head
                  exact hpbk_head
                refine ⟨?_, ?_, ?_⟩
                · rw [show (⟨path_fw ++ (v0 :: tb).tail, _, _, _⟩ : RouteResult).nodes =
                    path_fw ++ (v0 :: tb).tail from rfl]
                  rw [head?_append_left _ _ (length_ge_two_ne_nil _ hlen_fw)]
                  exact hpfw_head
                · rw [show (⟨path_fw ++ (v0 :: tb).tail, _, _, _⟩ : RouteResult).nodes =
                    path_fw ++ (v0 :: tb).tail from rfl]
                  rw [show (v0 :: tb).tail = tb from rfl]
                  rw [getLast?_append_right _ _ htb_ne]
                  rw [← getLast?_cons_of_ne_nil v0 tb htb_ne]
                  exact hpbk_last
                · rw [show (⟨path_fw ++ (v0 :: tb).tail, _, _, _⟩ : RouteResult).nodes =
                    path_fw ++ (v0 :: tb).tail from rfl]
                  rw [show (v0 :: tb).tail = tb from rfl]
                  rw [List.chain'_append]
                  refine ⟨hpfw_chain, (List.chain'_cons'.1 hpbk_chain).2, ?_⟩
                  intro x hx y hy
                  rw [hpfw_last] at hx
                  rw [Option.mem_def, Option.some_inj] at hx
                  subst hx
                  have hj := (List.chain'_cons'.1 hpbk_chain).1 y hy
                  rw [hv0] at hj
                  exact hj
              split at hr
              · exact hbest r hr
              · split at hr
                · exact hbest r hr
                · split at hr
                  · exact hbest r hr
                  · split at hr
                    · rw [Option.some_inj] at hr
                      rw [← hr]
                      exact hclosed
                    · split at hr
                      · rw [Option.some_inj] at hr
                        rw [← hr]
                        exact hclosed
                      · exact hbest r hr

theorem penGe1_nil : penGe1 [] := by
  intro k r h
  simp [aget] at h

theorem foldl_tryCandidate_closed (g : Graph) (start : NodeId)
    (d_min_m d_max_m elev_limit_m target_m : ℚ)
    (prev_fw : List (NodeId × Option NodeId))
    (hfw : ∀ t, (aget prev_fw t).isSome →
      ∃ p, _reconstruct_path prev_fw t = some p ∧ p.head? = some start ∧
        p.getLast? = some t ∧
        List.Chain' (fun a b => ∃ e ∈ (aget g.adjacency a).getD [], e.v = b) p)
    (hfw0 : ∀ t, aget prev_fw t = none → _reconstruct_path prev_fw t = none)
    (cands : List (ℚ × NodeId)) (best : Option RouteResult)
    (hbest : ∀ r, best = some r → loopClosed g start r) :
    ∀ r, cands.foldl
        (tryCandidate g start d_min_m d_max_m elev_limit_m target_m prev_fw) best
        = some r → loopClosed g start r := by
  induction cands generalizing best with
  | nil => exact hbest
  | cons c cs ih =>
    intro r hr
    exact ih _ (tryCandidate_closed g start d_min_m d_max_m elev_limit_m target_m
      prev_fw hfw hfw0 best c hbest) r hr

/-- Claim C3: for every graph satisfying the undirected-symmetry invariant
and every start id present in the graph, a non-null `RouteResult` of
`find_best_loop` has a node sequence that begins and ends with the start
id, with every consecutive pair connected by an edge of the adjacency
mapping. -/
theorem C3_loop_closure (g : Graph) (start : NodeId)
    (d_min_m d_max_m elev_limit_m target_m : ℚ) (r : RouteResult)
    (hsym : GraphSymmetric g) (hstart : (aget g.nodes start).isSome)
    (h : find_best_loop g start d_min_m d_max_m elev_limit_m target_m =
      Except.ok (some r)) :
    r.nodes.head? = some start ∧ r.nodes.getLast? = some start ∧
    List.Chain' (fun a b => ∃ e ∈ (aget g.adjacency a).getD [], e.v = b) r.nodes := by
  simp only [find_best_loop] at h
  split at h
  · exact absurd h (by simp)
  · split at h
    · simp at h
    · rw [Except.ok.injEq] at h
      have hfw : ∀ t, (aget (forwardRun g start d_max_m).2 t).isSome →
          ∃ p, _reconstruct_path (forwardRun g start d_max_m).2 t = some p ∧
            p.head? = some start ∧ p.getLast? = some t ∧
            List.Chain' (fun a b => ∃ e ∈ (aget g.adjacency a).getD [], e.v = b) p := by
        intro t ht
        obtain ⟨p, h1, h2, h3, -, h5⟩ :=
          (dijkstra_reconstruct g start d_max_m [] penGe1_nil t).1 ht
        exact ⟨p, h1, h2, h3, h5⟩
      have hfw0 : ∀ t, aget (forwardRun g start d_max_m).2 t = none →
          _reconstruct_path (forwardRun g start d_max_m).2 t = none :=
        fun t ht => (dijkstra_reconstruct g start d_max_m [] penGe1_nil t).2 ht
      exact foldl_tryCandidate_closed g start d_min_m d_max_m elev_limit_m target_m
        _ hfw hfw0 _ none (by simp) r h

instance (g : Graph) : Decidable (GraphSymmetric g) := by
  unfold GraphSymmetric
  infer_instance

unseal Rat.mul Rat.add Rat.sub Rat.inv Rat.ofScientific in
/-- Witness for C3: the concrete triangle loop is closed and edge-connected. -/
theorem C3_loop_closure_witness :
    (([("a"), ("c"), ("b"), ("a")] : List NodeId).head? = some ("a")) ∧
    (([("a"), ("c"), ("b"), ("a")] : List NodeId).getLast? = some ("a")) ∧
    List.Chain' (fun a b => ∃ e ∈ (aget gTriangle.adjacency a).getD [], e.v = b)
      [("a"), ("c"), ("b"), ("a")] :=
  C3_loop_closure gTriangle ("a") 250 350 1000 300
    ⟨[("a"), ("c"), ("b"), ("a")], 300, 0, 300⟩ (by decide) (by decide) (by decide)

end TinyRunRouter
